import Mathlib

/-!
# Verification of n8n-nodes-google-pagespeed core logic

A shallow embedding of the core logic of the `n8n-nodes-google-pagespeed`
repository: URL normalization (`src/nodes/GooglePageSpeed/utils/urlUtils.ts`),
sitemap URL filtering (`helpers/sitemapHelpers.ts`), the retry client and
batch scheduler (`utils/apiUtils.ts`), score extraction
(`helpers/responseFormatter.ts`) and the comparator
(`operations/compareUrls.ts`).

JavaScript strings are modelled as `List Char`.  The WHATWG `URL` object used
by the source is modelled by an explicit parser/serializer (`parseUrl`,
`UrlObj.toStr`) that is faithful on the benign character subset the
repository's URLs use (ASCII hosts/paths/query pairs without percent-escapes,
ports, userinfo or fragments) and conservatively fails elsewhere.
-/

/-- JavaScript strings are modelled as lists of characters. -/
abbrev Str := List Char

/-- Convert a Lean string literal into the model string type. -/
def strOf (s : String) : Str := s.toList

/-- Model of the whitespace class used by JavaScript `trim` and the `\s`
regex class (restricted to the ASCII whitespace actually occurring here). -/
def isWsChar (c : Char) : Bool :=
  c == ' ' || c == '\t' || c == '\n' || c == '\r' || c == '\x0b' || c == '\x0c'

/-- JavaScript `String.prototype.trim`: drop leading and trailing whitespace. -/
def trimStr (s : Str) : Str :=
  ((s.dropWhile isWsChar).reverse.dropWhile isWsChar).reverse

/-- `startsWith pat s` models JavaScript `s.startsWith(pat)`. -/
def startsWith : Str → Str → Bool
  | [], _ => true
  | _ :: _, [] => false
  | p :: ps, c :: cs => p == c && startsWith ps cs

/-- `containsSub pat s` models JavaScript `s.includes(pat)`. -/
def containsSub (pat : Str) : Str → Bool
  | [] => pat.isEmpty
  | c :: cs => startsWith pat (c :: cs) || containsSub pat cs

/-- ASCII lower-casing of one character (JavaScript `toLowerCase` on the
ASCII subset the model admits). -/
def lowerChar (c : Char) : Char :=
  if 'A' ≤ c ∧ c ≤ 'Z' then Char.ofNat (c.toNat + 32) else c

/-- JavaScript `String.prototype.toLowerCase` on the modelled subset. -/
def toLowerStr (s : Str) : Str := s.map lowerChar

/-- JavaScript `String.prototype.split(sep)` for a one-character separator. -/
def splitChar (sep : Char) : Str → List Str
  | [] => [[]]
  | c :: cs =>
    let r := splitChar sep cs
    if c == sep then [] :: r
    else
      match r with
      | [] => [[c]]
      | h :: t => (c :: h) :: t

/-- Join strings with a one-character separator (used to serialize queries). -/
def joinSep (sep : Char) : List Str → Str
  | [] => []
  | [x] => x
  | x :: y :: xs => x ++ sep :: joinSep sep (y :: xs)

/-- ASCII lower-case letter test. -/
def isLowerAlpha (c : Char) : Bool := decide ('a' ≤ c) && decide (c ≤ 'z')

/-- ASCII upper-case letter test. -/
def isUpperAlpha (c : Char) : Bool := decide ('A' ≤ c) && decide (c ≤ 'Z')

/-- ASCII digit test. -/
def isDigitChar (c : Char) : Bool := decide ('0' ≤ c) && decide ('9' ≥ c)

/-! ## Model of the WHATWG `URL` object

The source code round-trips strings through `new URL(url)` /
`urlObj.toString()` and mutates `urlObj.searchParams`.  The model below
captures that behaviour on URLs built from the character classes admitted
here; on anything else (ports, userinfo, fragments, percent-escapes,
non-ASCII) the model parser fails where the JavaScript parser may succeed,
which is sound for all claims quantified over successfully normalized
inputs. -/

/-- Characters admitted in a model hostname (after lower-casing). -/
def isHostChar (c : Char) : Bool :=
  isLowerAlpha c || isDigitChar c || c == '.' || c == '-' || c == '_'

/-- Characters admitted in a model path: characters the WHATWG serializer
leaves verbatim. -/
def isPathChar (c : Char) : Bool :=
  isLowerAlpha c || isUpperAlpha c || isDigitChar c ||
  c == '/' || c == '-' || c == '.' || c == '_' || c == '~'

/-- Characters admitted in query keys/values: characters the
`application/x-www-form-urlencoded` serializer leaves verbatim. -/
def isQueryChar (c : Char) : Bool :=
  isLowerAlpha c || isUpperAlpha c || isDigitChar c ||
  c == '-' || c == '.' || c == '_' || c == '*'

/-- Model of a parsed WHATWG `URL`: scheme (`http`/`https`), lower-cased
host, path (always starting with `/`), and the `searchParams` pair list. -/
structure UrlObj where
  scheme : Str
  host : Str
  path : Str
  params : List (Str × Str)
  deriving DecidableEq, Repr

/-- Parse one `k=v` query piece the way `URLSearchParams` does (value =
everything after the first `=`; empty value when no `=` is present). -/
def parseQueryPiece (piece : Str) : Option (Str × Str) :=
  let k := piece.takeWhile (fun c => c != '=')
  let r := piece.dropWhile (fun c => c != '=')
  let v := match r with
    | [] => []
    | _ :: t => t
  if k.all isQueryChar && v.all isQueryChar then some (k, v) else none

/-- Apply a fallible function to every element, failing when any element
fails (explicit recursion over `List.mapM` to keep proofs by `rfl`). -/
def mapOpt (f : α → Option β) : List α → Option (List β)
  | [] => some []
  | a :: l =>
    match f a, mapOpt f l with
    | some b, some bs => some (b :: bs)
    | _, _ => none

/-- Parse a query string (without the leading `?`) into `searchParams`
pairs; empty `&`-pieces are skipped as in `URLSearchParams`. -/
def parseQuery (q : Str) : Option (List (Str × Str)) :=
  let pieces := (splitChar '&' q).filter (fun p => !p.isEmpty)
  mapOpt parseQueryPiece pieces

/-- Parse path-and-query (the part after the authority). -/
def parseAfterHost (rest : Str) : Option (Str × List (Str × Str)) :=
  match rest with
  | [] => some (strOf "/", [])
  | '/' :: _ =>
    let p := rest.takeWhile (fun c => c != '?' && c != '#')
    let r2 := rest.dropWhile (fun c => c != '?' && c != '#')
    if p.all isPathChar then
      match r2 with
      | [] => some (p, [])
      | '?' :: q =>
        if q.all (fun c => c != '#') then
          (parseQuery q).map (fun ps => (p, ps))
        else none
      | _ => none
    else none
  | '?' :: q =>
    if q.all (fun c => c != '#') then
      (parseQuery q).map (fun ps => (strOf "/", ps))
    else none
  | _ => none

/-- Model of `new URL(s)` on the conservative subset described above. -/
def parseUrl (s : Str) : Option UrlObj := do
  let (scheme, rest) ←
    if startsWith (strOf "https://") s then some (strOf "https", s.drop 8)
    else if startsWith (strOf "http://") s then some (strOf "http", s.drop 7)
    else none
  let auth := rest.takeWhile (fun c => c != '/' && c != '?' && c != '#')
  let rest1 := rest.dropWhile (fun c => c != '/' && c != '?' && c != '#')
  let host := toLowerStr auth
  if host.isEmpty || !host.all isHostChar then none
  else do
    let (path, params) ← parseAfterHost rest1
    some ⟨scheme, host, path, params⟩

/-- Serialize `searchParams` pairs (`application/x-www-form-urlencoded`,
restricted to characters it keeps verbatim: every pair prints as `k=v`). -/
def serializeParams (ps : List (Str × Str)) : Str :=
  joinSep '&' (ps.map (fun kv => kv.1 ++ '=' :: kv.2))

/-- Model of `urlObj.toString()`. -/
def UrlObj.toStr (u : UrlObj) : Str :=
  u.scheme ++ strOf "://" ++ u.host ++ u.path ++
    (if u.params.isEmpty then [] else '?' :: serializeParams u.params)

/-! ## Embedding of `normalizeUrl`
(`src/nodes/GooglePageSpeed/utils/urlUtils.ts`, lines 11-55) -/

/-- Tracking query parameters deleted by `normalizeUrl` — the five
`searchParams.delete(...)` calls at lines 45-49 of `urlUtils.ts`. -/
def trackingParamsDeleted : List Str :=
  [strOf "utm_source", strOf "utm_medium", strOf "utm_campaign",
   strOf "fbclid", strOf "gclid"]

/-- Leading-junk strip `url.replace(/^[\/\s\.]+/, '')`. -/
def stripLeadingJunk (s : Str) : Str :=
  s.dropWhile (fun c => c == '/' || isWsChar c || c == '.')

/-- The protocol-forcing step of `normalizeUrl` (lines 29-33): rewrite
`http://` to `https://`, prepend `https://` when no protocol is present. -/
def forceHttps (s : Str) : Str :=
  if startsWith (strOf "http://") s then strOf "https://" ++ s.drop 7
  else if startsWith (strOf "https://") s then s
  else strOf "https://" ++ s

/-- Embedding of `normalizeUrl` from
`src/nodes/GooglePageSpeed/utils/urlUtils.ts`.  The throwing JavaScript
function is modelled with `Except Str Str` (error message / normalized URL).
The `new URL(url)` construction is `parseUrl`; the hostname test, the five
`searchParams.delete` calls and `urlObj.toString()` follow the source
line by line. -/
def normalizeUrl (inputUrl : Str) : Except Str Str :=
  if inputUrl.isEmpty then .error (strOf "INVALID_URL") else
  let url0 := trimStr inputUrl
  if url0.isEmpty then .error (strOf "URL cannot be empty") else
  let url1 := trimStr (stripLeadingJunk url0)
  if url1.isEmpty then .error (strOf "URL is empty after cleaning") else
  let url2 := forceHttps url1
  match parseUrl url2 with
  | none => .error (strOf "Cannot create valid URL")
  | some urlObj =>
    if urlObj.host.isEmpty || !urlObj.host.contains '.' then
      .error (strOf "Invalid domain")
    else
      let cleaned : UrlObj :=
        { urlObj with
            params := urlObj.params.filter
              (fun kv => !trackingParamsDeleted.contains kv.1) }
      .ok cleaned.toStr

/-! ## Auxiliary lemmas about the string model -/

theorem class_ne_of_false {p : Char → Bool} {c d : Char} (h : p c = true)
    (hd : p d = false) : (c != d) = true := by
  simp only [bne_iff_ne, ne_eq]
  rintro rfl
  simp [h] at hd

theorem all_ne_of_all_class {p : Char → Bool} {d : Char} (hd : p d = false)
    {l : Str} (h : l.all p = true) : l.all (fun c => c != d) = true := by
  simp only [List.all_eq_true] at h ⊢
  exact fun c hc => class_ne_of_false (h c hc) hd

theorem takeWhile_append_all {p : Char → Bool} {xs ys : Str}
    (h : xs.all p = true) : (xs ++ ys).takeWhile p = xs ++ ys.takeWhile p := by
  induction xs with
  | nil => simp
  | cons a as ih =>
    simp only [List.all_cons, Bool.and_eq_true] at h
    simp [List.takeWhile_cons, h.1, ih h.2]

theorem dropWhile_append_all {p : Char → Bool} {xs ys : Str}
    (h : xs.all p = true) : (xs ++ ys).dropWhile p = ys.dropWhile p := by
  induction xs with
  | nil => simp
  | cons a as ih =>
    simp only [List.all_cons, Bool.and_eq_true] at h
    simp [List.dropWhile_cons, h.1, ih h.2]

theorem takeWhile_eq_self_of_all {p : Char → Bool} {l : Str}
    (h : l.all p = true) : l.takeWhile p = l := by
  have := @takeWhile_append_all _ _ [] h
  simpa using this

theorem dropWhile_eq_self_of_all {p : Char → Bool} {l : Str}
    (h : l.all (fun c => !(p c)) = true) : l.dropWhile p = l := by
  induction l with
  | nil => simp
  | cons a as ih =>
    simp only [List.all_cons, Bool.and_eq_true] at h
    have ha : p a = false := by
      cases hpa : p a
      · rfl
      · simp [hpa] at h
    simp [List.dropWhile_cons, ha, ih h.2]

theorem trim_eq_self_of_all {l : Str}
    (h : l.all (fun c => !(isWsChar c)) = true) : trimStr l = l := by
  unfold trimStr
  rw [dropWhile_eq_self_of_all h, dropWhile_eq_self_of_all (by simpa using h),
    List.reverse_reverse]

theorem startsWith_append_self (p r : Str) : startsWith p (p ++ r) = true := by
  induction p with
  | nil => rfl
  | cons a as ih => simp [startsWith, ih]

theorem splitChar_nosep {sep : Char} {s : Str}
    (h : s.all (fun c => c != sep) = true) : splitChar sep s = [s] := by
  induction s with
  | nil => rfl
  | cons c cs ih =>
    simp only [List.all_cons, Bool.and_eq_true] at h
    have hc : (c == sep) = false := by
      have := h.1
      simp only [bne_iff_ne, ne_eq] at this
      simpa using this
    simp [splitChar, hc, ih h.2]

theorem splitChar_append_sep {sep : Char} {xs ys : Str}
    (h : xs.all (fun c => c != sep) = true) :
    splitChar sep (xs ++ sep :: ys) = xs :: splitChar sep ys := by
  induction xs with
  | nil => simp [splitChar]
  | cons c cs ih =>
    simp only [List.all_cons, Bool.and_eq_true] at h
    have hc : (c == sep) = false := by
      have := h.1
      simp only [bne_iff_ne, ne_eq] at this
      simpa using this
    rw [List.cons_append, splitChar]
    simp only [hc]
    rw [ih h.2]
    simp

theorem lowerChar_eq_self_of_hostChar {c : Char} (h : isHostChar c = true) :
    lowerChar c = c := by
  unfold lowerChar
  rw [if_neg]
  rintro ⟨h1, h2⟩
  simp only [isHostChar, isLowerAlpha, isDigitChar, Bool.or_eq_true,
    Bool.and_eq_true, decide_eq_true_eq, beq_iff_eq] at h
  rcases h with (((h | h) | h) | h) | h
  · exact absurd (le_trans h.1 h2) (by decide)
  · exact absurd (le_trans h1 h.2) (by decide)
  · rw [h] at h1; exact absurd h1 (by decide)
  · rw [h] at h1; exact absurd h1 (by decide)
  · rw [h] at h2; exact absurd h2 (by decide)

theorem toLower_eq_self_of_hostChars {l : Str} (h : l.all isHostChar = true) :
    toLowerStr l = l := by
  simp only [List.all_eq_true] at h
  unfold toLowerStr
  induction l with
  | nil => rfl
  | cons a as ih =>
    simp only [List.map_cons]
    rw [lowerChar_eq_self_of_hostChar (h a (by simp)), ih]
    intro c hc
    exact h c (by simp [hc])

/-- Invariant satisfied by every `UrlObj` the model parser produces:
known scheme, nonempty lower-case host, path starting with `/`, and all
components drawn from the admitted character classes. -/
def validUrl (u : UrlObj) : Bool :=
  (u.scheme == strOf "http" || u.scheme == strOf "https") &&
  (!u.host.isEmpty) && u.host.all isHostChar &&
  (u.path.head? == some '/') && u.path.all isPathChar &&
  u.params.all (fun kv => kv.1.all isQueryChar && kv.2.all isQueryChar)

theorem hostChar_authChar {c : Char} (h : isHostChar c = true) :
    (c != '/' && c != '?' && c != '#') = true := by
  have h1 := class_ne_of_false h (show isHostChar '/' = false by decide)
  have h2 := class_ne_of_false h (show isHostChar '?' = false by decide)
  have h3 := class_ne_of_false h (show isHostChar '#' = false by decide)
  simp [h1, h2, h3]

theorem pathChar_pqChar {c : Char} (h : isPathChar c = true) :
    (c != '?' && c != '#') = true := by
  have h1 := class_ne_of_false h (show isPathChar '?' = false by decide)
  have h2 := class_ne_of_false h (show isPathChar '#' = false by decide)
  simp [h1, h2]

theorem all_imp {p q : Char → Bool} (hpq : ∀ c, p c = true → q c = true)
    {l : Str} (h : l.all p = true) : l.all q = true := by
  simp only [List.all_eq_true] at h ⊢
  exact fun c hc => hpq c (h c hc)

theorem parseQueryPiece_serialized {k v : Str} (hk : k.all isQueryChar = true)
    (hv : v.all isQueryChar = true) :
    parseQueryPiece (k ++ '=' :: v) = some (k, v) := by
  unfold parseQueryPiece
  have hkne : k.all (fun c => c != '=') = true :=
    all_ne_of_all_class (show isQueryChar '=' = false by decide) hk
  rw [takeWhile_append_all hkne, dropWhile_append_all hkne]
  simp [List.takeWhile_cons, List.dropWhile_cons, hk, hv]

theorem piece_no_amp {k v : Str} (hk : k.all isQueryChar = true)
    (hv : v.all isQueryChar = true) :
    (k ++ '=' :: v).all (fun c => c != '&') = true := by
  simp only [List.all_append, List.all_cons, Bool.and_eq_true]
  exact ⟨all_ne_of_all_class (by decide) hk,
    by decide, all_ne_of_all_class (by decide) hv⟩

theorem piece_not_empty (k v : Str) : (k ++ '=' :: v).isEmpty = false := by
  cases k <;> simp

theorem serializeParams_all {ps : List (Str × Str)}
    (h : ps.all (fun kv => kv.1.all isQueryChar && kv.2.all isQueryChar) = true)
    {p : Char → Bool} (hq : ∀ c, isQueryChar c = true → p c = true)
    (he : p '=' = true) (ha : p '&' = true) :
    (serializeParams ps).all p = true := by
  induction ps with
  | nil => simp [serializeParams, joinSep]
  | cons kv rest ih =>
    simp only [List.all_cons, Bool.and_eq_true] at h
    obtain ⟨⟨hk, hv⟩, hrest⟩ := h
    cases rest with
    | nil =>
      simp only [serializeParams, List.map_cons, List.map_nil, joinSep]
      simp only [List.all_append, List.all_cons, Bool.and_eq_true]
      exact ⟨all_imp hq hk, he, all_imp hq hv⟩
    | cons kv2 rest2 =>
      have ih2 := ih hrest
      have hpiece : (kv.1 ++ '=' :: kv.2).all p = true := by
        rw [List.all_append, List.all_cons]
        simp [all_imp hq hk, he, all_imp hq hv]
      simp only [serializeParams, List.map_cons] at ih2
      simp only [serializeParams, List.map_cons, joinSep]
      rw [List.all_append, List.all_cons]
      simp [hpiece, ha, ih2]

theorem parseQuery_serialized {ps : List (Str × Str)}
    (h : ps.all (fun kv => kv.1.all isQueryChar && kv.2.all isQueryChar) = true) :
    parseQuery (serializeParams ps) = some ps := by
  induction ps with
  | nil => rfl
  | cons kv rest ih =>
    simp only [List.all_cons, Bool.and_eq_true] at h
    obtain ⟨⟨hk, hv⟩, hrest⟩ := h
    cases rest with
    | nil =>
      unfold parseQuery
      simp only [serializeParams, List.map_cons, List.map_nil, joinSep]
      rw [splitChar_nosep (piece_no_amp hk hv)]
      simp [piece_not_empty, mapOpt, parseQueryPiece_serialized hk hv]
    | cons kv2 rest2 =>
      have ih2 := ih hrest
      unfold parseQuery at ih2 ⊢
      simp only [serializeParams, List.map_cons] at ih2
      simp only [serializeParams, List.map_cons, joinSep]
      rw [splitChar_append_sep (piece_no_amp hk hv)]
      simp only [List.filter_cons, piece_not_empty, Bool.not_false, if_true]
      simp only [mapOpt, parseQueryPiece_serialized hk hv, ih2]

theorem parseAfterHost_serialized {path : Str} {params : List (Str × Str)}
    (hp0 : path.head? = some '/') (hpc : path.all isPathChar = true)
    (hps : params.all
      (fun kv => kv.1.all isQueryChar && kv.2.all isQueryChar) = true) :
    parseAfterHost
      (path ++ (if params.isEmpty then [] else '?' :: serializeParams params))
      = some (path, params) := by
  obtain ⟨pt, rfl⟩ : ∃ pt, path = '/' :: pt := by
    cases path with
    | nil => simp at hp0
    | cons c pt =>
      simp only [List.head?_cons, Option.some_inj] at hp0
      exact ⟨pt, by rw [hp0]⟩
  have hallpq : ('/' :: pt).all (fun c => c != '?' && c != '#') = true :=
    all_imp (fun c h => pathChar_pqChar h) hpc
  have hdrop : ('/' :: pt).dropWhile (fun c => c != '?' && c != '#') = [] := by
    have := @dropWhile_append_all _ _ [] hallpq
    simpa using this
  cases params with
  | nil =>
    simp only [List.isEmpty_nil, if_true, List.append_nil]
    unfold parseAfterHost
    rw [takeWhile_eq_self_of_all hallpq, hdrop]
    simp [hpc]
  | cons kv r2 =>
    have hS : (('/' :: pt) ++
        (if (kv :: r2).isEmpty then [] else '?' :: serializeParams (kv :: r2)))
        = ('/' :: pt) ++ '?' :: serializeParams (kv :: r2) := by simp
    rw [hS]
    have hallpq2 : pt.all (fun c => c != '?' && c != '#') = true := by
      simp only [List.all_cons, Bool.and_eq_true] at hallpq
      exact hallpq.2
    have htw2 : List.takeWhile (fun c => c != '?' && c != '#')
        (pt ++ '?' :: serializeParams (kv :: r2)) = pt := by
      rw [takeWhile_append_all hallpq2, List.takeWhile_cons]
      simp
    have hdw2 : List.dropWhile (fun c => c != '?' && c != '#')
        (pt ++ '?' :: serializeParams (kv :: r2))
        = '?' :: serializeParams (kv :: r2) := by
      rw [dropWhile_append_all hallpq2, List.dropWhile_cons]
      simp
    have hq : (serializeParams (kv :: r2)).all (fun c => c != '#') = true :=
      serializeParams_all hps
        (fun c h => class_ne_of_false h (by decide)) (by decide) (by decide)
    rw [List.cons_append]
    unfold parseAfterHost
    simp [List.takeWhile_cons, List.dropWhile_cons, htw2, hdw2, hpc, hq,
      parseQuery_serialized hps]

theorem parseUrl_https_append (rest : Str) :
    parseUrl (strOf "https://" ++ rest) =
      (let auth := rest.takeWhile (fun c => c != '/' && c != '?' && c != '#')
       let rest1 := rest.dropWhile (fun c => c != '/' && c != '?' && c != '#')
       let host := toLowerStr auth
       if host.isEmpty || !host.all isHostChar then none
       else (parseAfterHost rest1).bind
         (fun pr => some ⟨strOf "https", host, pr.1, pr.2⟩)) := rfl

theorem parseUrl_http_append (rest : Str) :
    parseUrl (strOf "http://" ++ rest) =
      (let auth := rest.takeWhile (fun c => c != '/' && c != '?' && c != '#')
       let rest1 := rest.dropWhile (fun c => c != '/' && c != '?' && c != '#')
       let host := toLowerStr auth
       if host.isEmpty || !host.all isHostChar then none
       else (parseAfterHost rest1).bind
         (fun pr => some ⟨strOf "http", host, pr.1, pr.2⟩)) := rfl

theorem parseUrl_toStr {u : UrlObj} (hu : validUrl u = true) :
    parseUrl u.toStr = some u := by
  obtain ⟨sch, host, path, params⟩ := u
  simp only [validUrl, Bool.and_eq_true, Bool.or_eq_true, beq_iff_eq,
    Bool.not_eq_true'] at hu
  obtain ⟨⟨⟨⟨⟨hsch, hne⟩, hhost⟩, hp0⟩, hpc⟩, hps⟩ := hu
  have hauth : host.all
      (fun c => c != '/' && c != '?' && c != '#') = true :=
    all_imp (fun c h => hostChar_authChar h) hhost
  have hp0' : path.head? = some '/' := hp0
  obtain ⟨pt, rfl⟩ : ∃ pt, path = '/' :: pt := by
    cases path with
    | nil => simp at hp0'
    | cons c t =>
      simp only [List.head?_cons, Option.some_inj] at hp0'
      exact ⟨t, by rw [hp0']⟩
  have hAfter := parseAfterHost_serialized hp0' hpc hps
  have hslash : (('/' : Char) != '/' && ('/' : Char) != '?' &&
      ('/' : Char) != '#') = false := rfl
  rcases hsch with h | h <;> subst h
  · have hts : UrlObj.toStr ⟨strOf "http", host, '/' :: pt, params⟩ =
        strOf "http://" ++ ((host ++ ('/' :: pt)) ++
          (if params.isEmpty then []
           else '?' :: serializeParams params)) := rfl
    rw [hts, parseUrl_http_append]
    simp only [List.append_assoc, List.cons_append]
    rw [takeWhile_append_all hauth, dropWhile_append_all hauth]
    simp only [List.takeWhile_cons, List.dropWhile_cons, hslash,
      Bool.false_eq_true, if_false, List.append_nil]
    rw [toLower_eq_self_of_hostChars hhost]
    simp only [hne, hhost, Bool.not_true, Bool.or_false, Bool.false_eq_true,
      if_false]
    simp only [List.cons_append] at hAfter
    rw [hAfter]
    rfl
  · have hts : UrlObj.toStr ⟨strOf "https", host, '/' :: pt, params⟩ =
        strOf "https://" ++ ((host ++ ('/' :: pt)) ++
          (if params.isEmpty then []
           else '?' :: serializeParams params)) := rfl
    rw [hts, parseUrl_https_append]
    simp only [List.append_assoc, List.cons_append]
    rw [takeWhile_append_all hauth, dropWhile_append_all hauth]
    simp only [List.takeWhile_cons, List.dropWhile_cons, hslash,
      Bool.false_eq_true, if_false, List.append_nil]
    rw [toLower_eq_self_of_hostChars hhost]
    simp only [hne, hhost, Bool.not_true, Bool.or_false, Bool.false_eq_true,
      if_false]
    simp only [List.cons_append] at hAfter
    rw [hAfter]
    rfl

theorem parseQueryPiece_classes {piece : Str} {kv : Str × Str}
    (h : parseQueryPiece piece = some kv) :
    (kv.1.all isQueryChar && kv.2.all isQueryChar) = true := by
  unfold parseQueryPiece at h
  dsimp only at h
  split at h
  · rename_i hcond
    obtain rfl : _ = kv := Option.some_inj.mp h
    exact hcond
  · exact Option.noConfusion h

theorem mapOpt_pieces_classes :
    ∀ {l : List Str} {ps : List (Str × Str)},
      mapOpt parseQueryPiece l = some ps →
      ps.all (fun kv => kv.1.all isQueryChar && kv.2.all isQueryChar) = true := by
  intro l
  induction l with
  | nil =>
    intro ps h
    obtain rfl : [] = ps := Option.some_inj.mp h
    rfl
  | cons a t ih =>
    intro ps h
    unfold mapOpt at h
    rcases hfa : parseQueryPiece a with _ | kv <;> rw [hfa] at h
    · exact Option.noConfusion h
    rcases hmt : mapOpt parseQueryPiece t with _ | bs <;> rw [hmt] at h
    · exact Option.noConfusion h
    obtain rfl : kv :: bs = ps := Option.some_inj.mp h
    have hkv := parseQueryPiece_classes hfa
    simp only [Bool.and_eq_true] at hkv
    simp only [List.all_cons, Bool.and_eq_true]
    exact ⟨hkv, ih hmt⟩

theorem parseQuery_classes {q : Str} {ps : List (Str × Str)}
    (h : parseQuery q = some ps) :
    ps.all (fun kv => kv.1.all isQueryChar && kv.2.all isQueryChar) = true := by
  unfold parseQuery at h
  exact mapOpt_pieces_classes h

theorem option_map_eq_some {f : α → β} {o : Option α} {b : β}
    (h : o.map f = some b) : ∃ a, o = some a ∧ b = f a := by
  cases o with
  | none => exact Option.noConfusion h
  | some a => exact ⟨a, rfl, (Option.some_inj.mp h).symm⟩

theorem parseAfterHost_props {r : Str} {p : Str} {ps : List (Str × Str)}
    (h : parseAfterHost r = some (p, ps)) :
    p.head? = some '/' ∧ p.all isPathChar = true ∧
      ps.all (fun kv => kv.1.all isQueryChar && kv.2.all isQueryChar) = true := by
  unfold parseAfterHost at h
  dsimp only at h
  split at h
  · have hpp := Option.some_inj.mp h
    obtain ⟨rfl, rfl⟩ : strOf "/" = p ∧ [] = ps :=
      ⟨congrArg Prod.fst hpp, congrArg Prod.snd hpp⟩
    exact ⟨rfl, rfl, rfl⟩
  · rename_i tail
    split at h
    · rename_i hpc
      split at h
      · have hpp := Option.some_inj.mp h
        obtain ⟨rfl, rfl⟩ : _ = p ∧ [] = ps :=
          ⟨congrArg Prod.fst hpp, congrArg Prod.snd hpp⟩
        refine ⟨?_, hpc, rfl⟩
        rw [List.takeWhile_cons]
        simp
      · split at h
        · obtain ⟨l, hq, hbl⟩ := option_map_eq_some h
          have h1 : p = _ := congrArg Prod.fst hbl
          have h2 : ps = l := congrArg Prod.snd hbl
          subst h1
          subst h2
          refine ⟨?_, hpc, parseQuery_classes hq⟩
          rw [List.takeWhile_cons]
          simp
        · exact Option.noConfusion h
      · exact Option.noConfusion h
    · exact Option.noConfusion h
  · split at h
    · obtain ⟨l, hq, hbl⟩ := option_map_eq_some h
      have h1 : p = strOf "/" := congrArg Prod.fst hbl
      have h2 : ps = l := congrArg Prod.snd hbl
      subst h1
      subst h2
      exact ⟨rfl, rfl, parseQuery_classes hq⟩
    · exact Option.noConfusion h
  · exact Option.noConfusion h

theorem option_bind_eq_some {f : α → Option β} {o : Option α} {b : β}
    (h : o.bind f = some b) : ∃ a, o = some a ∧ f a = some b := by
  cases o with
  | none => exact Option.noConfusion h
  | some a => exact ⟨a, rfl, h⟩

theorem parseUrl_body_valid {sch : Str}
    (hsch : (sch == strOf "http" || sch == strOf "https") = true)
    {rest : Str} {u : UrlObj}
    (h : (let auth := rest.takeWhile (fun c => c != '/' && c != '?' && c != '#')
          let rest1 := rest.dropWhile (fun c => c != '/' && c != '?' && c != '#')
          let host := toLowerStr auth
          if host.isEmpty || !host.all isHostChar then none
          else (parseAfterHost rest1).bind
            (fun pr => some ⟨sch, host, pr.1, pr.2⟩)) = some u) :
    validUrl u = true := by
  dsimp only at h
  split at h
  · exact Option.noConfusion h
  · rename_i hg
    obtain ⟨pr, hph, hu⟩ := option_bind_eq_some h
    obtain rfl : _ = u := Option.some_inj.mp hu
    obtain ⟨p, ps⟩ := pr
    obtain ⟨hh0, hh1, hh2⟩ := parseAfterHost_props hph
    simp only [Bool.or_eq_true, Bool.not_eq_true', not_or,
      Bool.not_eq_false] at hg
    simp only [validUrl, Bool.and_eq_true, Bool.or_eq_true, beq_iff_eq]
    refine ⟨⟨⟨⟨⟨?_, ?_⟩, hg.2⟩, ?_⟩, hh1⟩, hh2⟩
    · simpa using hsch
    · simp [hg.1]
    · simp [hh0]

theorem parseUrl_valid {s : Str} {u : UrlObj} (h : parseUrl s = some u) :
    validUrl u = true := by
  unfold parseUrl at h
  by_cases h1 : startsWith (strOf "https://") s = true
  · rw [if_pos h1] at h
    simp only [Option.bind_eq_bind, Option.some_bind] at h
    exact parseUrl_body_valid (by rfl) h
  · rw [if_neg h1] at h
    by_cases h2 : startsWith (strOf "http://") s = true
    · rw [if_pos h2] at h
      simp only [Option.bind_eq_bind, Option.some_bind] at h
      exact parseUrl_body_valid (by rfl) h
    · rw [if_neg h2] at h
      simp at h

theorem parseUrl_scheme_https {s : Str} {u : UrlObj}
    (hs : startsWith (strOf "https://") s = true) (h : parseUrl s = some u) :
    u.scheme = strOf "https" := by
  unfold parseUrl at h
  rw [if_pos hs] at h
  simp only [Option.bind_eq_bind, Option.some_bind] at h
  split at h
  · exact Option.noConfusion h
  · obtain ⟨pr, hph, hu⟩ := option_bind_eq_some h
    obtain rfl : _ = u := Option.some_inj.mp hu
    rfl

/-- The input-cleaning and protocol-handling prefix of `normalizeUrl`
(trim, strip leading junk, trim, force `https://`). -/
def protoHandled (x : Str) : Str :=
  forceHttps (trimStr (stripLeadingJunk (trimStr x)))

/-- The query-parameter cleaning step of `normalizeUrl`
(the five `searchParams.delete` calls). -/
def deleteTracking (u : UrlObj) : UrlObj :=
  { scheme := u.scheme, host := u.host, path := u.path,
    params := u.params.filter (fun kv => !trackingParamsDeleted.contains kv.1) }

theorem forceHttps_startsWith (s : Str) :
    startsWith (strOf "https://") (forceHttps s) = true := by
  unfold forceHttps
  split
  · exact startsWith_append_self _ _
  · split
    · assumption
    · exact startsWith_append_self _ _

theorem normalizeUrl_ok_elim {x r : Str} (h : normalizeUrl x = .ok r) :
    ∃ u, parseUrl (protoHandled x) = some u ∧
      (!u.host.isEmpty && u.host.contains '.') = true ∧
      r = (deleteTracking u).toStr := by
  unfold normalizeUrl at h
  dsimp only at h
  split at h
  · exact Except.noConfusion h
  split at h
  · exact Except.noConfusion h
  split at h
  · exact Except.noConfusion h
  split at h
  · exact Except.noConfusion h
  · rename_i u hparse
    split at h
    · exact Except.noConfusion h
    · rename_i hguard
      have hr := Except.ok.inj h
      refine ⟨u, hparse, ?_, hr.symm⟩
      simp only [Bool.or_eq_true, Bool.not_eq_true'] at hguard
      push_neg at hguard
      have h1 : u.host.isEmpty = false := by
        cases hh : u.host.isEmpty
        · rfl
        · exact absurd hh hguard.1
      have h2 : u.host.contains '.' = true := by
        cases hh : u.host.contains '.'
        · exact absurd hh hguard.2
        · rfl
      rw [h1, h2]
      rfl

theorem wsChar_elim {c : Char} (h : isWsChar c = true) :
    c = ' ' ∨ c = '\t' ∨ c = '\n' ∨ c = '\r' ∨ c = '\x0b' ∨ c = '\x0c' := by
  simp only [isWsChar, Bool.or_eq_true, beq_iff_eq] at h
  tauto

theorem ws_false_of_class {p : Char → Bool} {c : Char} (h : p c = true)
    (h1 : p ' ' = false) (h2 : p '\t' = false) (h3 : p '\n' = false)
    (h4 : p '\r' = false) (h5 : p '\x0b' = false) (h6 : p '\x0c' = false) :
    isWsChar c = false := by
  cases hw : isWsChar c
  · rfl
  · rcases wsChar_elim hw with rfl | rfl | rfl | rfl | rfl | rfl <;> simp_all

theorem toStr_not_ws {u : UrlObj} (hu : validUrl u = true)
    (hs : u.scheme = strOf "https") :
    u.toStr.all (fun c => !isWsChar c) = true := by
  obtain ⟨sch, host, path, params⟩ := u
  simp only at hs
  subst hs
  simp only [validUrl, Bool.and_eq_true, Bool.or_eq_true, beq_iff_eq,
    Bool.not_eq_true'] at hu
  obtain ⟨⟨⟨⟨⟨_, hne⟩, hhost⟩, hp0⟩, hpc⟩, hps⟩ := hu
  have hts : UrlObj.toStr ⟨strOf "https", host, path, params⟩ =
      strOf "https://" ++ ((host ++ path) ++
        (if params.isEmpty then [] else '?' :: serializeParams params)) := rfl
  rw [hts]
  have hhostws : host.all (fun c => !isWsChar c) = true :=
    all_imp (fun c h => by
      rw [ws_false_of_class h (by decide) (by decide) (by decide) (by decide)
        (by decide) (by decide)]
      rfl) hhost
  have hpathws : path.all (fun c => !isWsChar c) = true :=
    all_imp (fun c h => by
      rw [ws_false_of_class h (by decide) (by decide) (by decide) (by decide)
        (by decide) (by decide)]
      rfl) hpc
  have hqws : (if params.isEmpty then []
      else '?' :: serializeParams params).all (fun c => !isWsChar c) = true := by
    cases params with
    | nil => rfl
    | cons kv rest =>
      simp only [List.isEmpty_cons, Bool.false_eq_true, if_false,
        List.all_cons, Bool.and_eq_true]
      refine ⟨by decide, ?_⟩
      exact serializeParams_all hps
        (fun c h => by
          rw [ws_false_of_class h (by decide) (by decide) (by decide)
            (by decide) (by decide) (by decide)]
          rfl)
        (by decide) (by decide)
  simp only [List.all_append, Bool.and_eq_true]
  exact ⟨by decide, ⟨hhostws, hpathws⟩, hqws⟩

theorem normalizeUrl_fix {u : UrlObj} (hu : validUrl u = true)
    (hs : u.scheme = strOf "https")
    (hdot : (!u.host.isEmpty && u.host.contains '.') = true)
    (hfiltered : u.params.filter
      (fun kv => !trackingParamsDeleted.contains kv.1) = u.params) :
    normalizeUrl u.toStr = .ok u.toStr := by
  have hws := toStr_not_ws hu hs
  have hparse := parseUrl_toStr hu
  obtain ⟨sch, host, path, params⟩ := u
  simp only at hs
  subst hs
  have hts : UrlObj.toStr ⟨strOf "https", host, path, params⟩ =
      strOf "https://" ++ ((host ++ path) ++
        (if params.isEmpty then [] else '?' :: serializeParams params)) := rfl
  rw [hts] at hws hparse ⊢
  set X := (host ++ path) ++
    (if params.isEmpty then [] else '?' :: serializeParams params) with hX
  have hne : (strOf "https://" ++ X).isEmpty = false := rfl
  have htrim : trimStr (strOf "https://" ++ X) = strOf "https://" ++ X :=
    trim_eq_self_of_all hws
  have hstrip : stripLeadingJunk (strOf "https://" ++ X)
      = strOf "https://" ++ X := rfl
  have hforce : forceHttps (strOf "https://" ++ X) = strOf "https://" ++ X := by
    unfold forceHttps
    rw [show startsWith (strOf "http://") (strOf "https://" ++ X) = false
      from rfl]
    rw [startsWith_append_self]
    simp
  have hguard : (List.isEmpty host || !List.contains host '.') = false := by
    simp only [Bool.and_eq_true, Bool.not_eq_true'] at hdot
    rw [hdot.1, hdot.2]
    rfl
  unfold normalizeUrl
  dsimp only
  rw [hne]
  simp only [Bool.false_eq_true, if_false]
  rw [htrim, hne]
  simp only [Bool.false_eq_true, if_false]
  rw [hstrip, htrim, hne]
  simp only [Bool.false_eq_true, if_false]
  rw [hforce, hparse]
  simp only [hguard, Bool.false_eq_true, if_false]
  have : List.filter (fun kv => !trackingParamsDeleted.contains kv.1) params
      = params := hfiltered
  rw [this, hts]

theorem all_filter_of_all {α} {p q : α → Bool} {l : List α}
    (h : l.all p = true) : (l.filter q).all p = true := by
  simp only [List.all_eq_true] at h ⊢
  exact fun a ha => h a (List.mem_filter.mp ha).1

/-- C6: `normalize` is idempotent — whenever `normalizeUrl` succeeds, running
it again on its own output succeeds and returns the same string. -/
theorem normalizeUrl_idempotent {x r : Str} (h : normalizeUrl x = .ok r) :
    normalizeUrl r = .ok r := by
  obtain ⟨u, hparse, hdot, rfl⟩ := normalizeUrl_ok_elim h
  have hvalid0 := parseUrl_valid hparse
  have hsw : startsWith (strOf "https://") (protoHandled x) = true := by
    unfold protoHandled
    exact forceHttps_startsWith _
  have hscheme0 : u.scheme = strOf "https" :=
    parseUrl_scheme_https hsw hparse
  have hvalid : validUrl (deleteTracking u) = true := by
    simp only [validUrl, deleteTracking, Bool.and_eq_true] at hvalid0 ⊢
    exact ⟨hvalid0.1, all_filter_of_all hvalid0.2⟩
  have hsch : (deleteTracking u).scheme = strOf "https" := hscheme0
  have hdot2 : (!(deleteTracking u).host.isEmpty &&
      (deleteTracking u).host.contains '.') = true := hdot
  have hfilt : (deleteTracking u).params.filter
      (fun kv => !trackingParamsDeleted.contains kv.1)
      = (deleteTracking u).params :=
    List.filter_eq_self.mpr (fun a ha => (List.mem_filter.mp ha).2)
  exact normalizeUrl_fix hvalid hsch hdot2 hfilt

/-- Witness for C6 at a concrete input: `"Example.com/a?b=1"` normalizes to
`"https://example.com/a?b=1"` and normalizing that again is a fixpoint. -/
theorem normalizeUrl_idempotent_witness :
    normalizeUrl (strOf "Example.com/a?b=1")
        = .ok (strOf "https://example.com/a?b=1") ∧
      normalizeUrl (strOf "https://example.com/a?b=1")
        = .ok (strOf "https://example.com/a?b=1") :=
  ⟨rfl, @normalizeUrl_idempotent (strOf "Example.com/a?b=1") _ rfl⟩

theorem deleteTracking_valid {u : UrlObj} (h : validUrl u = true) :
    validUrl (deleteTracking u) = true := by
  simp only [validUrl, deleteTracking, Bool.and_eq_true] at h ⊢
  exact ⟨h.1, all_filter_of_all h.2⟩

/-- C4 counterexample: `utm_content` is one of the seven parameters the
claim says are always stripped, yet `normalizeUrl` (which deletes only
five parameters) returns a URL whose query still carries `utm_content`. -/
theorem normalizeUrl_keeps_utm_content :
    normalizeUrl (strOf "https://site.com/?utm_content=x&id=1")
        = .ok (strOf "https://site.com/?utm_content=x&id=1") ∧
      (parseUrl (strOf "https://site.com/?utm_content=x&id=1")).map
        (fun u => u.params.map (fun kv => kv.1))
        = some [strOf "utm_content", strOf "id"] :=
  ⟨rfl, rfl⟩

/-- C4 amended: for every successful normalization the output query drops
exactly the five parameters `utm_source, utm_medium, utm_campaign, fbclid,
gclid` (`utm_content` and `utm_term` are not deleted), and every other
query pair of the parsed input is preserved. -/
theorem normalizeUrl_strips_tracking {x r : Str}
    (h : normalizeUrl x = .ok r) :
    ∃ u0 u, parseUrl (protoHandled x) = some u0 ∧ parseUrl r = some u ∧
      u.params = u0.params.filter
        (fun kv => !trackingParamsDeleted.contains kv.1) ∧
      (∀ kv ∈ u.params, ¬ kv.1 ∈ trackingParamsDeleted) ∧
      (∀ kv ∈ u0.params, ¬ kv.1 ∈ trackingParamsDeleted → kv ∈ u.params) := by
  obtain ⟨u0, hparse, hdot, rfl⟩ := normalizeUrl_ok_elim h
  have hvalid := deleteTracking_valid (parseUrl_valid hparse)
  refine ⟨u0, deleteTracking u0, hparse, parseUrl_toStr hvalid, rfl, ?_, ?_⟩
  · intro kv hkv
    have := (List.mem_filter.mp hkv).2
    simpa using this
  · intro kv hkv hnot
    refine List.mem_filter.mpr ⟨hkv, ?_⟩
    simpa using hnot

/-- Witness for C4 amended: `utm_source=x` is dropped and `id=1` kept. -/
theorem normalizeUrl_strips_tracking_witness :
    ∃ u0 u,
      parseUrl (protoHandled (strOf "https://site.com/?utm_source=x&id=1"))
        = some u0 ∧
      parseUrl (strOf "https://site.com/?id=1") = some u ∧
      u.params = u0.params.filter
        (fun kv => !trackingParamsDeleted.contains kv.1) ∧
      (∀ kv ∈ u.params, ¬ kv.1 ∈ trackingParamsDeleted) ∧
      (∀ kv ∈ u0.params, ¬ kv.1 ∈ trackingParamsDeleted → kv ∈ u.params) :=
  @normalizeUrl_strips_tracking
    (strOf "https://site.com/?utm_source=x&id=1") _ rfl

/-- C5 counterexample: `normalize("localhost")` fails with an error even
though the protocol-handled input parses with hostname `localhost`. -/
theorem normalizeUrl_localhost_rejected :
    normalizeUrl (strOf "localhost") = .error (strOf "Invalid domain") ∧
      (parseUrl (protoHandled (strOf "localhost"))).map UrlObj.host
        = some (strOf "localhost") :=
  ⟨rfl, rfl⟩

/-- C5 amended: `normalizeUrl` accepts an input exactly when the
protocol-handled input parses and the parsed hostname contains a dot —
there is no `localhost` exception in this version of the code. -/
theorem normalizeUrl_accepts_iff (x : Str) :
    (∃ r, normalizeUrl x = .ok r) ↔
    (∃ u, parseUrl (protoHandled x) = some u ∧
      u.host ≠ [] ∧ u.host.contains '.' = true) := by
  constructor
  · rintro ⟨r, hr⟩
    obtain ⟨u, hp, hdot, _⟩ := normalizeUrl_ok_elim hr
    simp only [Bool.and_eq_true, Bool.not_eq_true'] at hdot
    refine ⟨u, hp, ?_, hdot.2⟩
    intro hnil
    rw [hnil] at hdot
    exact Bool.noConfusion hdot.1
  · rintro ⟨u, hp, hne, hdot⟩
    have hx : x.isEmpty = false := by
      cases hxe : x.isEmpty
      · rfl
      · exfalso
        have hxnil : x = [] := by simpa using hxe
        rw [hxnil] at hp
        rw [show protoHandled [] = strOf "https://" from rfl] at hp
        rw [show parseUrl (strOf "https://") = none from rfl] at hp
        exact Option.noConfusion hp
    have ht1 : (trimStr x).isEmpty = false := by
      cases hxe : (trimStr x).isEmpty
      · rfl
      · exfalso
        have hxnil : trimStr x = [] := by simpa using hxe
        unfold protoHandled at hp
        rw [hxnil] at hp
        rw [show forceHttps (trimStr (stripLeadingJunk []))
          = strOf "https://" from rfl] at hp
        rw [show parseUrl (strOf "https://") = none from rfl] at hp
        exact Option.noConfusion hp
    have ht2 : (trimStr (stripLeadingJunk (trimStr x))).isEmpty = false := by
      cases hxe : (trimStr (stripLeadingJunk (trimStr x))).isEmpty
      · rfl
      · exfalso
        have hxnil : trimStr (stripLeadingJunk (trimStr x)) = [] := by
          simpa using hxe
        unfold protoHandled at hp
        rw [hxnil] at hp
        rw [show forceHttps [] = strOf "https://" from rfl] at hp
        rw [show parseUrl (strOf "https://") = none from rfl] at hp
        exact Option.noConfusion hp
    have hhe : u.host.isEmpty = false := by
      cases hh : u.host.isEmpty
      · rfl
      · exfalso
        exact hne (by simpa using hh)
    refine ⟨(deleteTracking u).toStr, ?_⟩
    unfold normalizeUrl
    dsimp only
    rw [hx]
    simp only [Bool.false_eq_true, if_false]
    rw [ht1]
    simp only [Bool.false_eq_true, if_false]
    rw [ht2]
    simp only [Bool.false_eq_true, if_false]
    unfold protoHandled at hp
    rw [hp]
    dsimp only
    rw [show (List.isEmpty u.host || !List.contains u.host '.') = false from by
      rw [hhe, hdot]
      rfl]
    simp only [Bool.false_eq_true, if_false]
    rfl

/-! ## Embedding of the sitemap URL filters
(`src/nodes/GooglePageSpeed/helpers/sitemapHelpers.ts` and
`utils/urlUtils.ts` / `config.ts` for `isLikelyXmlUrl`). -/

/-- `PAGESPEED_CONFIG.XML_EXTENSIONS`. -/
def XML_EXTENSIONS : List Str := [".xml", ".rss", ".atom"].map strOf

/-- `PAGESPEED_CONFIG.XML_PATHS`. -/
def XML_PATHS : List Str :=
  ["sitemap", "feed", "rss", "/api/", ".json"].map strOf

/-- Embedding of `isLikelyXmlUrl` (`urlUtils.ts` lines 113-118). -/
def isLikelyXmlUrl (url : Str) : Bool :=
  let urlLower := toLowerStr url
  XML_EXTENSIONS.any (fun ext => containsSub ext urlLower) ||
  XML_PATHS.any (fun path => containsSub path urlLower)

/-- JS `s.endsWith(suffix)`. -/
def endsWithStr (suffix s : Str) : Bool :=
  startsWith suffix.reverse s.reverse

/-- `excludeExtensions` list of `isValidPageUrl`. -/
def excludeExtensions : List Str :=
  [".xml", ".pdf", ".doc", ".docx", ".zip", ".jpg", ".jpeg", ".png", ".gif",
   ".svg", ".css", ".js", ".json"].map strOf

/-- `excludePaths` list of `isValidPageUrl`. -/
def excludePaths : List Str :=
  ["/api/", "/admin/", "/wp-admin/", "/wp-content/"].map strOf

/-- Embedding of `isValidPageUrl` (`sitemapHelpers.ts` lines 251-292):
parse failure and every exclusion heuristic yield `false`. -/
def isValidPageUrl (url : Str) : Bool :=
  match parseUrl url with
  | none => false
  | some urlObj =>
    if !(urlObj.scheme == strOf "http" || urlObj.scheme == strOf "https") then
      false
    else if urlObj.host.isEmpty || urlObj.host.length < 3 then false
    else
      let pathLower := toLowerStr urlObj.path
      if excludeExtensions.any (fun ext => endsWithStr ext pathLower) then false
      else if excludePaths.any (fun p => containsSub p pathLower) then false
      else if isLikelyXmlUrl url then false
      else true

/-- `UrlFilters` (`interfaces.ts` lines 7-12); absent optional fields are
`none`. -/
structure UrlFilters where
  includePattern : Option Str
  excludePattern : Option Str
  maxUrls : Option Nat
  urlType : Option Str
  deriving DecidableEq, Repr

/-- Pattern splitting `pattern.split(',').map(trim).filter(nonempty)`. -/
def splitPatterns (p : Str) : List Str :=
  ((splitChar ',' p).map trimStr).filter (fun t => !t.isEmpty)

/-- The include-pattern stage of `applyUrlFilters` (lines 325-337); a falsy
(`none`/empty) pattern or an all-empty token list leaves the list alone. -/
def includeStep (pat? : Option Str) (l : List Str) : List Str :=
  match pat? with
  | none => l
  | some pat =>
    if pat.isEmpty then l
    else
      let pats := splitPatterns pat
      if pats.isEmpty then l
      else l.filter (fun url =>
        pats.any (fun p => containsSub (toLowerStr p) (toLowerStr url)))

/-- The exclude-pattern stage of `applyUrlFilters` (lines 340-352). -/
def excludeStep (pat? : Option Str) (l : List Str) : List Str :=
  match pat? with
  | none => l
  | some pat =>
    if pat.isEmpty then l
    else
      let pats := splitPatterns pat
      if pats.isEmpty then l
      else l.filter (fun url =>
        !pats.any (fun p => containsSub (toLowerStr p) (toLowerStr url)))

/-- The blog/post markers of the URL-type stage. -/
def postMarkers : List Str :=
  ["/blog/", "/post/", "/news/", "/article/"].map strOf

/-- The URL-type stage of `applyUrlFilters` (lines 355-379): `pages` drops
URLs containing a post marker, `posts` keeps only those; `all`, a falsy
value, or any other value leaves the list alone. -/
def urlTypeStep (t? : Option Str) (l : List Str) : List Str :=
  match t? with
  | none => l
  | some t =>
    if t.isEmpty || t == strOf "all" then l
    else if t == strOf "pages" then
      l.filter (fun url =>
        !postMarkers.any (fun m => containsSub m (toLowerStr url)))
    else if t == strOf "posts" then
      l.filter (fun url =>
        postMarkers.any (fun m => containsSub m (toLowerStr url)))
    else l

/-- Case-insensitive de-duplication (lines 382-390), keeping the first
occurrence; `seen` carries the lower-cased strings already emitted. -/
def dedupeGo (seen : List Str) : List Str → List Str
  | [] => []
  | u :: rest =>
    if seen.contains (toLowerStr u) then dedupeGo seen rest
    else u :: dedupeGo (toLowerStr u :: seen) rest

/-- Entry point of the de-duplication stage. -/
def dedupeCI (l : List Str) : List Str := dedupeGo [] l

/-- `filters.maxUrls || PAGESPEED_CONFIG.DEFAULT_MAX_URLS` — JS `||`
treats `0` as falsy, so `0` also yields the default `50`. -/
def maxUrlsOf (m? : Option Nat) : Nat :=
  match m? with
  | none => 50
  | some m => if m == 0 then 50 else m

/-- The truncation stage (lines 393-397). -/
def truncStep (m? : Option Nat) (l : List Str) : List Str :=
  let mu := maxUrlsOf m?
  if l.length > mu then l.take mu else l

/-- The final `filteredUrls.sort()` (line 400): JavaScript's default sort
compares strings lexicographically; after de-duplication all elements are
distinct, so the sorted result is the unique sorted permutation, modelled
with `List.insertionSort`. -/
def sortUrls (l : List Str) : List Str :=
  List.insertionSort (fun a b => a ≤ b) l

/-- The per-URL normalization+validity stage of `applyUrlFilters`
(lines 305-320): normalize, drop failures, drop non-page URLs. -/
def normalizeStage (urls : List Str) : List Str :=
  urls.filterMap (fun rawUrl =>
    match normalizeUrl rawUrl with
    | .error _ => none
    | .ok n => if isValidPageUrl n then some n else none)

/-- Embedding of `applyUrlFilters` (`sitemapHelpers.ts` lines 300-405):
normalization+validity, include, exclude, urlType, case-insensitive
de-duplication, truncation to maxUrls, final sort. -/
def applyUrlFilters (urls : List Str) (filters : UrlFilters) : List Str :=
  if urls.isEmpty then []
  else
    sortUrls (truncStep filters.maxUrls (dedupeCI
      (urlTypeStep filters.urlType (excludeStep filters.excludePattern
        (includeStep filters.includePattern (normalizeStage urls))))))

/-- The filter stages in the order the claim lists them: normalization
(discarding failures only), include, exclude, urlType, then the non-HTML
drop. -/
def claimFilterStages (urls : List Str) (filters : UrlFilters) : List Str :=
  (urlTypeStep filters.urlType (excludeStep filters.excludePattern
    (includeStep filters.includePattern
      (urls.filterMap (fun rawUrl =>
        match normalizeUrl rawUrl with
        | .error _ => none
        | .ok n => some n)))))
    |>.filter isValidPageUrl

/-- The pipeline exactly as the claim describes it: the five filter stages
followed directly by truncation to maxUrls (default 50) — no
de-duplication and no sort. -/
def claimPipeline (urls : List Str) (filters : UrlFilters) : List Str :=
  truncStep filters.maxUrls (claimFilterStages urls filters)

theorem filter_comm (p q : Str → Bool) (l : List Str) :
    (l.filter q).filter p = (l.filter p).filter q := by
  simp only [List.filter_filter]
  simp [Bool.and_comm]

theorem includeStep_filter (pat? : Option Str) (p : Str → Bool)
    (l : List Str) :
    includeStep pat? (l.filter p) = (includeStep pat? l).filter p := by
  unfold includeStep
  cases pat? with
  | none => rfl
  | some pat =>
    dsimp only
    split_ifs <;> first | rfl | exact filter_comm _ _ l

theorem excludeStep_filter (pat? : Option Str) (p : Str → Bool)
    (l : List Str) :
    excludeStep pat? (l.filter p) = (excludeStep pat? l).filter p := by
  unfold excludeStep
  cases pat? with
  | none => rfl
  | some pat =>
    dsimp only
    split_ifs <;> first | rfl | exact filter_comm _ _ l

theorem urlTypeStep_filter (t? : Option Str) (p : Str → Bool)
    (l : List Str) :
    urlTypeStep t? (l.filter p) = (urlTypeStep t? l).filter p := by
  unfold urlTypeStep
  cases t? with
  | none => rfl
  | some t =>
    dsimp only
    split_ifs <;> first | rfl | exact filter_comm _ _ l

theorem includeStep_nil (pat? : Option Str) : includeStep pat? [] = [] := by
  unfold includeStep
  cases pat? with
  | none => rfl
  | some pat =>
    dsimp only
    split_ifs <;> rfl

theorem excludeStep_nil (pat? : Option Str) : excludeStep pat? [] = [] := by
  unfold excludeStep
  cases pat? with
  | none => rfl
  | some pat =>
    dsimp only
    split_ifs <;> rfl

theorem urlTypeStep_nil (t? : Option Str) : urlTypeStep t? [] = [] := by
  unfold urlTypeStep
  cases t? with
  | none => rfl
  | some t =>
    dsimp only
    split_ifs <;> rfl

theorem truncStep_nil (m? : Option Nat) : truncStep m? [] = [] := by
  unfold truncStep
  simp

theorem normalizeStage_eq (urls : List Str) :
    normalizeStage urls =
      (urls.filterMap (fun rawUrl =>
        match normalizeUrl rawUrl with
        | .error _ => none
        | .ok n => some n)).filter isValidPageUrl := by
  induction urls with
  | nil => rfl
  | cons a t ih =>
    unfold normalizeStage at ih ⊢
    rw [List.filterMap_cons, List.filterMap_cons]
    cases hn : normalizeUrl a with
    | error e => simpa using ih
    | ok n =>
      cases hv : isValidPageUrl n with
      | false => simp [hv, ih]
      | true => simp [hv, ih]

/-- The code's pipeline equals the claim's five filter stages followed by
case-insensitive de-duplication, truncation and sorting. -/
theorem applyUrlFilters_eq_claim_stages (urls : List Str)
    (filters : UrlFilters) :
    applyUrlFilters urls filters =
      sortUrls (truncStep filters.maxUrls
        (dedupeCI (claimFilterStages urls filters))) := by
  unfold applyUrlFilters claimFilterStages
  cases hu : urls.isEmpty with
  | true =>
    have hnil : urls = [] := by simpa using hu
    subst hnil
    rw [if_pos rfl, List.filterMap_nil, includeStep_nil, excludeStep_nil,
      urlTypeStep_nil, List.filter_nil]
    rfl
  | false =>
    rw [normalizeStage_eq, includeStep_filter, excludeStep_filter,
      urlTypeStep_filter]
    simp

/-- C8 counterexample: on two valid URLs given out of lexicographic order
the claim's pipeline (filters then truncation, nothing else) returns them
in input order, while `applyUrlFilters` additionally sorts the result, so
the two disagree. -/
theorem applyUrlFilters_ne_claimPipeline :
    applyUrlFilters [strOf "https://b.com", strOf "https://a.com"]
        ⟨none, none, none, none⟩
        = [strOf "https://a.com/", strOf "https://b.com/"] ∧
      claimPipeline [strOf "https://b.com", strOf "https://a.com"]
        ⟨none, none, none, none⟩
        = [strOf "https://b.com/", strOf "https://a.com/"] ∧
      applyUrlFilters [strOf "https://b.com", strOf "https://a.com"]
        ⟨none, none, none, none⟩
        ≠ claimPipeline [strOf "https://b.com", strOf "https://a.com"]
        ⟨none, none, none, none⟩ :=
  ⟨rfl, rfl, by decide⟩

/-- C8 amended: `applyUrlFilters` applies the claim's five filter stages in
an order equivalent to the claimed one (the non-HTML drop commutes with
the pattern and type filters), then case-insensitively de-duplicates,
truncates to maxUrls (default 50), and finally sorts; on the claim's
example exactly `/page/b` survives. -/
theorem applyUrlFilters_claim_order :
    (∀ urls filters, applyUrlFilters urls filters =
        sortUrls (truncStep filters.maxUrls
          (dedupeCI (claimFilterStages urls filters)))) ∧
      applyUrlFilters
        [strOf "https://site.com/blog/a", strOf "https://site.com/page/b",
         strOf "https://site.com/admin/c"]
        ⟨none, some (strOf "/admin/"), none, some (strOf "pages")⟩
        = [strOf "https://site.com/page/b"] :=
  ⟨applyUrlFilters_eq_claim_stages, rfl⟩

theorem dedupeGo_not_seen {seen : List Str} {l : List Str} :
    ∀ u ∈ dedupeGo seen l, seen.contains (toLowerStr u) = false := by
  induction l generalizing seen with
  | nil => intro u hu; exact absurd hu (by simp [dedupeGo])
  | cons a t ih =>
    intro u hu
    unfold dedupeGo at hu
    split at hu
    · exact ih u hu
    · rename_i hns
      rcases List.mem_cons.mp hu with rfl | hmem
      · cases hc : seen.contains (toLowerStr u)
        · rfl
        · exact absurd hc hns
      · have := ih u hmem
        rw [List.contains_cons] at this
        exact (Bool.or_eq_false_iff.mp this).2

theorem dedupeGo_pairwise (seen : List Str) (l : List Str) :
    List.Pairwise (fun a b => toLowerStr a ≠ toLowerStr b)
      (dedupeGo seen l) := by
  induction l generalizing seen with
  | nil => exact List.Pairwise.nil
  | cons a t ih =>
    unfold dedupeGo
    split
    · exact ih seen
    · refine List.Pairwise.cons ?_ (ih _)
      intro b hb
      have := dedupeGo_not_seen b hb
      rw [List.contains_cons] at this
      have h1 := (Bool.or_eq_false_iff.mp this).1
      intro heq
      rw [heq] at h1
      simp at h1

theorem dedupeCI_pairwise (l : List Str) :
    List.Pairwise (fun a b => toLowerStr a ≠ toLowerStr b) (dedupeCI l) :=
  dedupeGo_pairwise [] l

/-- C10: the output of `applyUrlFilters` never contains two URLs equal up
to character case, and is sorted in ascending lexicographic order. -/
theorem applyUrlFilters_nodup_sorted (urls : List Str)
    (filters : UrlFilters) :
    List.Pairwise (fun a b => toLowerStr a ≠ toLowerStr b)
        (applyUrlFilters urls filters) ∧
      List.Sorted (fun a b : Str => a ≤ b) (applyUrlFilters urls filters) := by
  unfold applyUrlFilters
  cases hu : urls.isEmpty with
  | true => simp
  | false =>
    simp only [Bool.false_eq_true, if_false]
    constructor
    · have hdedupe := dedupeCI_pairwise
        (urlTypeStep filters.urlType (excludeStep filters.excludePattern
          (includeStep filters.includePattern (normalizeStage urls))))
      have htrunc : List.Pairwise (fun a b => toLowerStr a ≠ toLowerStr b)
          (truncStep filters.maxUrls (dedupeCI
            (urlTypeStep filters.urlType (excludeStep filters.excludePattern
              (includeStep filters.includePattern
                (normalizeStage urls)))))) := by
        unfold truncStep
        dsimp only
        split
        · exact List.Pairwise.sublist (List.take_sublist _ _) hdedupe
        · exact hdedupe
      have hperm := List.perm_insertionSort (fun a b : Str => a ≤ b)
        (truncStep filters.maxUrls (dedupeCI
          (urlTypeStep filters.urlType (excludeStep filters.excludePattern
            (includeStep filters.includePattern (normalizeStage urls))))))
      exact (hperm.pairwise_iff (fun h => h.symm)).mpr htrunc
    · exact List.sorted_insertionSort _ _

/-! ## Embedding of the retry client and batch scheduler
(`src/nodes/GooglePageSpeed/utils/apiUtils.ts`, with constants from
`config.ts`). -/

/-- `ERROR_TYPES` (`config.ts` lines 131-142). -/
inductive ErrorType where
  | INVALID_URL
  | INVALID_CONTENT_TYPE
  | NOT_HTML
  | API_ERROR
  | TIMEOUT
  | RATE_LIMITED
  | NETWORK_ERROR
  | AUTHENTICATION_ERROR
  | QUOTA_EXCEEDED
  | UNKNOWN
  deriving DecidableEq, Repr

/-- The error value `classifyError` inspects: `error.message` and the
resolved `error?.response?.status || error?.statusCode` (absent modelled
as `none`). -/
structure JsError where
  message : Str
  statusCode : Option Int
  deriving DecidableEq, Repr

/-- Embedding of `classifyError` (`apiUtils.ts` lines 25-52).  The message
is lower-cased first, so the literal checks for `ETIMEDOUT`, `NOT_HTML`,
`ECONNREFUSED` and `ENOTFOUND` are kept exactly as written (they can never
match a lower-cased string). -/
def classifyError (error : JsError) : ErrorType :=
  let message := toLowerStr error.message
  let statusCode := error.statusCode
  if statusCode == some 401 || containsSub (strOf "authentication") message
      || containsSub (strOf "api key") message then
    .AUTHENTICATION_ERROR
  else if statusCode == some 429 || containsSub (strOf "rate limit") message
      || containsSub (strOf "quota") message then
    .RATE_LIMITED
  else if statusCode == some 403 && (containsSub (strOf "quota") message
      || containsSub (strOf "billing") message) then
    .QUOTA_EXCEEDED
  else if containsSub (strOf "timeout") message
      || containsSub (strOf "ETIMEDOUT") message then
    .TIMEOUT
  else if containsSub (strOf "not_html") message
      || containsSub (strOf "NOT_HTML") message then
    .NOT_HTML
  else if containsSub (strOf "network") message
      || containsSub (strOf "ECONNREFUSED") message
      || containsSub (strOf "ENOTFOUND") message then
    .NETWORK_ERROR
  else if (match statusCode with
           | some v => decide (400 ≤ v) && decide (v < 500)
           | none => false) then
    .API_ERROR
  else
    .UNKNOWN

/-- The `retryableErrors` list of `isRetryableError` (lines 60-65). -/
def retryableErrors : List ErrorType :=
  [.TIMEOUT, .NETWORK_ERROR, .RATE_LIMITED, .UNKNOWN]

/-- Embedding of `isRetryableError` (lines 59-67). -/
def isRetryableError (errorType : ErrorType) : Bool :=
  retryableErrors.contains errorType

/-- `PAGESPEED_CONFIG.RETRY_DELAY_BASE`. -/
def RETRY_DELAY_BASE : Nat := 1000

/-- `PAGESPEED_CONFIG.RETRY_DELAY_MAX`. -/
def RETRY_DELAY_MAX : Nat := 10000

/-- `PAGESPEED_CONFIG.DEFAULT_RETRY_ATTEMPTS`. -/
def DEFAULT_RETRY_ATTEMPTS : Nat := 2

/-- `PAGESPEED_CONFIG.BATCH_DELAY_MS`. -/
def BATCH_DELAY_MS : Nat := 1000

/-- Embedding of `createDelay` (lines 12-18) at its default
`baseDelay = RETRY_DELAY_BASE`, returning the length of the delay in
milliseconds: `min(baseDelay * 2^attempt, RETRY_DELAY_MAX)`. -/
def createDelay (attempt : Nat) : Nat :=
  min (RETRY_DELAY_BASE * 2 ^ attempt) RETRY_DELAY_MAX

/-- C3 counterexample: a 403 error whose message carries quota wording is
classified `RATE_LIMITED`, not `QUOTA_EXCEEDED`, because the rate-limit
branch (`429 / "rate limit" / "quota"`) is checked first. -/
theorem classifyError_403_quota_rate_limited :
    classifyError ⟨strOf "Daily quota exceeded for this project",
        some 403⟩ = .RATE_LIMITED ∧
      (ErrorType.RATE_LIMITED ≠ ErrorType.QUOTA_EXCEEDED) :=
  ⟨rfl, by decide⟩

/-- C3 amended: `QUOTA_EXCEEDED` is only reachable for a 403 with billing
wording and no quota/rate-limit wording; a 403 with `quota` in the message
(like a 429, or any message with `rate limit`) classifies `RATE_LIMITED`,
provided the authentication branch does not match first. -/
theorem classifyError_quota_billing (e : JsError) :
    (e.statusCode = some 403 →
      containsSub (strOf "quota") (toLowerStr e.message) = true →
      containsSub (strOf "authentication") (toLowerStr e.message) = false →
      containsSub (strOf "api key") (toLowerStr e.message) = false →
      classifyError e = .RATE_LIMITED) ∧
    (e.statusCode = some 403 →
      containsSub (strOf "billing") (toLowerStr e.message) = true →
      containsSub (strOf "quota") (toLowerStr e.message) = false →
      containsSub (strOf "rate limit") (toLowerStr e.message) = false →
      containsSub (strOf "authentication") (toLowerStr e.message) = false →
      containsSub (strOf "api key") (toLowerStr e.message) = false →
      classifyError e = .QUOTA_EXCEEDED) ∧
    (e.statusCode = some 429 →
      containsSub (strOf "authentication") (toLowerStr e.message) = false →
      containsSub (strOf "api key") (toLowerStr e.message) = false →
      classifyError e = .RATE_LIMITED) ∧
    (containsSub (strOf "rate limit") (toLowerStr e.message) = true →
      e.statusCode ≠ some 401 →
      containsSub (strOf "authentication") (toLowerStr e.message) = false →
      containsSub (strOf "api key") (toLowerStr e.message) = false →
      classifyError e = .RATE_LIMITED) := by
  refine ⟨?_, ?_, ?_, ?_⟩
  · intro hs hq ha hk
    unfold classifyError
    rw [hs]
    simp [ha, hk, hq]
  · intro hs hb hq hr ha hk
    unfold classifyError
    rw [hs]
    simp [ha, hk, hq, hr, hb]
  · intro hs ha hk
    unfold classifyError
    rw [hs]
    simp [ha, hk]
  · intro hr hs ha hk
    unfold classifyError
    cases hsc : e.statusCode with
    | none => simp [ha, hk, hr]
    | some v =>
      have hv : (some v == some (401 : Int)) = false := by
        rw [hsc] at hs
        simpa using hs
      simp [ha, hk, hr, hv]

/-- Witness for C3 amended at concrete errors: 403+quota → RATE_LIMITED,
403+billing → QUOTA_EXCEEDED, 429 → RATE_LIMITED, "rate limit" message →
RATE_LIMITED. -/
theorem classifyError_quota_billing_witness :
    classifyError ⟨strOf "quota exceeded", some 403⟩ = .RATE_LIMITED ∧
      classifyError ⟨strOf "billing account disabled", some 403⟩
        = .QUOTA_EXCEEDED ∧
      classifyError ⟨strOf "too many requests", some 429⟩ = .RATE_LIMITED ∧
      classifyError ⟨strOf "rate limit reached", none⟩ = .RATE_LIMITED :=
  ⟨(classifyError_quota_billing _).1 rfl rfl rfl rfl,
   (classifyError_quota_billing _).2.1 rfl rfl rfl rfl rfl rfl,
   (classifyError_quota_billing _).2.2.1 rfl rfl rfl,
   (classifyError_quota_billing _).2.2.2 rfl (by decide) rfl rfl⟩

/-- Minimal model of a PageSpeed API response: whether the payload carries
`lighthouseResult`. -/
structure ApiResponse where
  hasLighthouseResult : Bool
  deriving DecidableEq, Repr

/-- The outcome of one HTTP attempt: a response or a thrown error. -/
abbrev AttemptOutcome := Except JsError ApiResponse

/-- Result shape of `makePageSpeedRequest`: a success payload, a pre-flight
content-type error, or the structured error object built in the catch
branch (lines 166-177) — the function never re-throws. -/
inductive RequestResult where
  | success (resp : ApiResponse)
  | contentTypeError
  | errorResult (errorType : ErrorType) (retryCount : Nat) (canRetry : Bool)
  deriving DecidableEq, Repr

/-- One try-block iteration (lines 138-157): an HTTP 200 whose body lacks
`lighthouseResult` throws `Invalid API response: missing lighthouse
results`, which the catch classifies like any other error. -/
def attemptResult (attempts : Nat → AttemptOutcome) (k : Nat) :
    AttemptOutcome :=
  match attempts k with
  | .ok resp =>
    if !resp.hasLighthouseResult then
      .error ⟨strOf "Invalid API response: missing lighthouse results", none⟩
    else .ok resp
  | .error e => .error e

/-- The retry loop of `makePageSpeedRequest` (lines 137-196), with the
delays performed recorded alongside the result.  `fuel` counts the
remaining loop iterations (`maxRetries + 1 - attempt`); exhausting it
reaches the "shouldn't be reached" fallback of lines 187-196. -/
def requestLoop (attempts : Nat → AttemptOutcome) (maxRetries : Nat) :
    Nat → Nat → RequestResult × List Nat
  | _, 0 => (.errorResult .UNKNOWN maxRetries false, [])
  | attempt, fuel + 1 =>
    match attemptResult attempts attempt with
    | .ok resp => (.success resp, [])
    | .error e =>
      let errorType := classifyError e
      let isLastAttempt := attempt == maxRetries
      let canRetry := isRetryableError errorType && !isLastAttempt
      if !canRetry then (.errorResult errorType attempt false, [])
      else
        let (r, ds) := requestLoop attempts maxRetries (attempt + 1) fuel
        if attempt < maxRetries then (r, createDelay attempt :: ds)
        else (r, ds)

/-- `additionalFields.retryAttempts || PAGESPEED_CONFIG.DEFAULT_RETRY_ATTEMPTS`
(line 112); JS `||` treats `0` as falsy, so `0` also yields the default. -/
def retryAttemptsOf (retryAttempts? : Option Nat) : Nat :=
  match retryAttempts? with
  | none => DEFAULT_RETRY_ATTEMPTS
  | some r => if r == 0 then DEFAULT_RETRY_ATTEMPTS else r

/-- Result of the optional content-type pre-validation (§4.2); `none`
models `skipContentValidation`. -/
structure ContentValidation where
  isValid : Bool
  deriving DecidableEq, Repr

/-- Embedding of `makePageSpeedRequest` (lines 106-197): an invalid
pre-validation short-circuits to a structured `INVALID_CONTENT_TYPE`
result; otherwise the retry loop runs from attempt 0. -/
def makePageSpeedRequest (validation? : Option ContentValidation)
    (attempts : Nat → AttemptOutcome) (retryAttempts? : Option Nat) :
    RequestResult × List Nat :=
  match validation? with
  | some v =>
    if !v.isValid then (.contentTypeError, [])
    else requestLoop attempts (retryAttemptsOf retryAttempts?) 0
      (retryAttemptsOf retryAttempts? + 1)
  | none => requestLoop attempts (retryAttemptsOf retryAttempts?) 0
      (retryAttemptsOf retryAttempts? + 1)

theorem requestLoop_spec (attempts : Nat → AttemptOutcome)
    (maxRetries : Nat) :
    ∀ (fuel attempt : Nat), attempt + fuel = maxRetries →
    ∃ m, attempt + m ≤ maxRetries ∧
      (∀ j < m, ∃ e, attemptResult attempts (attempt + j) = .error e ∧
        isRetryableError (classifyError e) = true) ∧
      (requestLoop attempts maxRetries attempt (fuel + 1)).2
        = (List.range' attempt m).map (fun k => createDelay k) ∧
      ((∃ resp, attemptResult attempts (attempt + m) = .ok resp ∧
          (requestLoop attempts maxRetries attempt (fuel + 1)).1
            = .success resp) ∨
       (∃ e, attemptResult attempts (attempt + m) = .error e ∧
          (requestLoop attempts maxRetries attempt (fuel + 1)).1
            = .errorResult (classifyError e) (attempt + m) false ∧
          (isRetryableError (classifyError e) = false ∨
            attempt + m = maxRetries))) := by
  intro fuel
  induction fuel with
  | zero =>
    intro attempt h
    have hlast : attempt = maxRetries := by omega
    refine ⟨0, by omega, by omega, ?_, ?_⟩
    · cases ha : attemptResult attempts attempt with
      | ok resp => simp [requestLoop, ha]
      | error e =>
        simp only [requestLoop, ha]
        rw [show (attempt == maxRetries) = true by simp [hlast]]
        simp [isRetryableError]
    · cases ha : attemptResult attempts attempt with
      | ok resp =>
        refine Or.inl ⟨resp, by simpa using ha, ?_⟩
        simp [requestLoop, ha]
      | error e =>
        refine Or.inr ⟨e, by simpa using ha, ?_, Or.inr (by omega)⟩
        simp only [requestLoop, ha]
        rw [show (attempt == maxRetries) = true by simp [hlast]]
        simp [isRetryableError]
  | succ fuel ih =>
    intro attempt h
    have hlt : attempt < maxRetries := by omega
    have hne : (attempt == maxRetries) = false := by
      simp
      omega
    cases ha : attemptResult attempts attempt with
    | ok resp =>
      refine ⟨0, by omega, by omega, ?_, ?_⟩
      · simp [requestLoop, ha]
      · exact Or.inl ⟨resp, by simpa using ha, by simp [requestLoop, ha]⟩
    | error e =>
      cases hr : isRetryableError (classifyError e) with
      | false =>
        refine ⟨0, by omega, by omega, ?_, ?_⟩
        · simp [requestLoop, ha, hne, hr]
        · refine Or.inr ⟨e, by simpa using ha, ?_, Or.inl hr⟩
          simp [requestLoop, ha, hne, hr]
      | true =>
        obtain ⟨m, hm, hfails, hds, hres⟩ := ih (attempt + 1) (by omega)
        have hloop :
            requestLoop attempts maxRetries attempt (fuel + 1 + 1)
              = ((requestLoop attempts maxRetries (attempt + 1)
                    (fuel + 1)).1,
                 createDelay attempt ::
                   (requestLoop attempts maxRetries (attempt + 1)
                    (fuel + 1)).2) := by
          simp only [requestLoop, ha]
          rw [hne]
          simp [hr, hlt]
        refine ⟨m + 1, by omega, ?_, ?_, ?_⟩
        · intro j hj
          cases j with
          | zero => exact ⟨e, by simpa using ha, hr⟩
          | succ j =>
            have hshift : attempt + (j + 1) = (attempt + 1) + j := by omega
            rw [hshift]
            exact hfails j (by omega)
        · rw [hloop]
          rw [List.range'_succ, List.map_cons, hds]
        · have hshift : attempt + (m + 1) = (attempt + 1) + m := by omega
          rw [hloop, hshift]
          simpa using hres

/-- C2: the retry loop of `makePageSpeedRequest` retries a failed attempt
exactly when its classified error type is retryable (`TIMEOUT`,
`NETWORK_ERROR`, `RATE_LIMITED`, `UNKNOWN`) and the maximum attempt count
(default 2 extra attempts, so at most 3 total tries) is not yet reached:
some `m ≤ maxRetries` attempts fail with retryable classifications, each
retry after attempt `k` is preceded by a delay of
`min(baseDelay·2^k, maxDelay)`, and the run ends either in a success or in
a structured error result with `canRetry = false`, stopping only on a
non-retryable classification or on exhausting the attempts. -/
theorem makePageSpeedRequest_retry_policy (attempts : Nat → AttemptOutcome)
    (retryAttempts? : Option Nat) :
    retryAttemptsOf none = 2 ∧
    (∃ m, m ≤ retryAttemptsOf retryAttempts? ∧
      (∀ j < m, ∃ e, attemptResult attempts j = .error e ∧
        isRetryableError (classifyError e) = true) ∧
      (makePageSpeedRequest none attempts retryAttempts?).2
        = (List.range m).map
            (fun k => min (RETRY_DELAY_BASE * 2 ^ k) RETRY_DELAY_MAX) ∧
      ((∃ resp, attemptResult attempts m = .ok resp ∧
          (makePageSpeedRequest none attempts retryAttempts?).1
            = .success resp) ∨
       (∃ e, attemptResult attempts m = .error e ∧
          (makePageSpeedRequest none attempts retryAttempts?).1
            = .errorResult (classifyError e) m false ∧
          (isRetryableError (classifyError e) = false ∨
            m = retryAttemptsOf retryAttempts?)))) := by
  refine ⟨rfl, ?_⟩
  obtain ⟨m, hm, hfails, hds, hres⟩ :=
    requestLoop_spec attempts (retryAttemptsOf retryAttempts?)
      (retryAttemptsOf retryAttempts?) 0 (by omega)
  refine ⟨m, by omega, ?_, ?_, ?_⟩
  · intro j hj
    have := hfails j hj
    simpa using this
  · show (requestLoop attempts (retryAttemptsOf retryAttempts?) 0
      (retryAttemptsOf retryAttempts? + 1)).2 = _
    rw [hds, List.range_eq_range']
    rfl
  · simpa using hres

/-- `PAGESPEED_CONFIG.MAX_CONCURRENT_REQUESTS`. -/
def MAX_CONCURRENT_REQUESTS : Nat := 3

/-- Write a completed value into a result buffer at a given slot. -/
def setSlot {β} (l : List (Option β)) (i : Nat) (v : β) : List (Option β) :=
  match l, i with
  | [], _ => []
  | _ :: t, 0 => some v :: t
  | h :: t, i + 1 => h :: setSlot t i v

/-- Model of one chunk's `Promise.all`: the requests of `chunk` complete in
the arbitrary order `order` (a permutation of the chunk's indices); each
completion stores its result at its own index, and the chunk resolves with
the buffer read out in index order.  `none` is returned only when `order`
fails to cover every slot. -/
def settleAll {α β} (outcome : α → β) (chunk : List α)
    (order : List Nat) : Option (List β) :=
  let slots := order.foldl
    (fun acc i =>
      match chunk[i]? with
      | some c => setSlot acc i (outcome c)
      | none => acc)
    (List.replicate chunk.length none)
  mapOpt (fun x => x) slots

/-- The chunking `configs.slice(i, i + maxConcurrent)` of
`batchProcessUrls` (lines 218-219) with the fixed
`MAX_CONCURRENT_REQUESTS = 3`. -/
def chunksOf3 {α} : List α → List (List α)
  | [] => []
  | [a] => [[a]]
  | [a, b] => [[a, b]]
  | a :: b :: c :: rest => [a, b, c] :: chunksOf3 rest

/-- Sequential processing of the chunks (the outer `for` loop of
`batchProcessUrls`): each chunk settles completely — under its own
completion order — before the next chunk starts; its results are appended
in order (`results.push(...batchResults)`).  The inter-batch
`createDelay(0, BATCH_DELAY_MS)` pause affects timing only, never the
result list, and is omitted here. -/
def batchGo {α β} (outcome : α → β) :
    List (List α) → List (List Nat) → Option (List β)
  | [], _ => some []
  | _ :: _, [] => none
  | c :: cs, ord :: ords =>
    match settleAll outcome c ord, batchGo outcome cs ords with
    | some r, some rs => some (r ++ rs)
    | _, _ => none

/-- Embedding of `batchProcessUrls` (`apiUtils.ts` lines 208-242):
`outcome` gives each config's request result (`makePageSpeedRequest` is
deterministic per config in this model), and `schedule` lists one
completion order per chunk. -/
def batchProcessUrls {α β} (outcome : α → β) (configs : List α)
    (schedule : List (List Nat)) : Option (List β) :=
  batchGo outcome (chunksOf3 configs) schedule

theorem setSlot_length {β} (l : List (Option β)) (i : Nat) (v : β) :
    (setSlot l i v).length = l.length := by
  induction l generalizing i with
  | nil => rfl
  | cons h t ih =>
    cases i with
    | zero => rfl
    | succ i => simp [setSlot, ih]

theorem setSlot_get_self {β} {l : List (Option β)} {i : Nat} {v : β}
    (h : i < l.length) : (setSlot l i v)[i]? = some (some v) := by
  induction l generalizing i with
  | nil => simp at h
  | cons a t ih =>
    cases i with
    | zero => simp [setSlot]
    | succ i =>
      simp only [setSlot, List.getElem?_cons_succ]
      exact ih (by simpa using h)

theorem setSlot_get_other {β} {l : List (Option β)} {i j : Nat} {v : β}
    (h : j ≠ i) : (setSlot l i v)[j]? = l[j]? := by
  induction l generalizing i j with
  | nil => rfl
  | cons a t ih =>
    cases i with
    | zero =>
      cases j with
      | zero => exact absurd rfl h
      | succ j => simp [setSlot]
    | succ i =>
      cases j with
      | zero => simp [setSlot]
      | succ j =>
        simp only [setSlot, List.getElem?_cons_succ]
        exact ih (by omega)

theorem fill_length {α β} (outcome : α → β) (chunk : List α) :
    ∀ (order : List Nat) (acc : List (Option β)),
      (order.foldl (fun acc i =>
        match chunk[i]? with
        | some c => setSlot acc i (outcome c)
        | none => acc) acc).length = acc.length := by
  intro order
  induction order with
  | nil => intro acc; rfl
  | cons i rest ih =>
    intro acc
    rw [List.foldl_cons, ih]
    cases hc : chunk[i]? with
    | none => rfl
    | some c => simp [setSlot_length]

theorem fill_get_not_mem {α β} (outcome : α → β) (chunk : List α) :
    ∀ (order : List Nat) (acc : List (Option β)) (j : Nat), j ∉ order →
      (order.foldl (fun acc i =>
        match chunk[i]? with
        | some c => setSlot acc i (outcome c)
        | none => acc) acc)[j]? = acc[j]? := by
  intro order
  induction order with
  | nil => intro acc j _; rfl
  | cons i rest ih =>
    intro acc j hj
    rw [List.foldl_cons, ih _ _ (fun hm => hj (List.mem_cons_of_mem _ hm))]
    cases hc : chunk[i]? with
    | none => rfl
    | some c =>
      simp only
      exact setSlot_get_other (fun he => hj (he ▸ List.mem_cons_self _ _))

theorem fill_get_mem {α β} (outcome : α → β) (chunk : List α) :
    ∀ (order : List Nat) (acc : List (Option β)) (j : Nat),
      j < chunk.length → acc.length = chunk.length → j ∈ order →
      (order.foldl (fun acc i =>
        match chunk[i]? with
        | some c => setSlot acc i (outcome c)
        | none => acc) acc)[j]?
        = (chunk[j]?).map (fun c => some (outcome c)) := by
  intro order
  induction order with
  | nil => intro acc j _ _ hm; exact absurd hm (List.not_mem_nil j)
  | cons i rest ih =>
    intro acc j hj hacc hm
    by_cases hjr : j ∈ rest
    · rw [List.foldl_cons]
      refine ih _ j hj ?_ hjr
      cases hc : chunk[i]? with
      | none => simpa using hacc
      | some c => simp [setSlot_length, hacc]
    · have hji : j = i := by
        rcases List.mem_cons.mp hm with h | h
        · exact h
        · exact absurd h hjr
      subst hji
      rw [List.foldl_cons,
        fill_get_not_mem outcome chunk rest _ j hjr]
      have hc : chunk[j]? = some chunk[j] := List.getElem?_eq_getElem hj
      rw [hc]
      simp only [Option.map_some']
      exact setSlot_get_self (by omega)

theorem mapOpt_id_map_some {β} (l : List β) :
    mapOpt (fun x => x) (l.map (fun b => some b)) = some l := by
  induction l with
  | nil => rfl
  | cons a t ih => simp [mapOpt, ih]

theorem settleAll_perm {α β} (outcome : α → β) (chunk : List α)
    (order : List Nat) (h : order.Perm (List.range chunk.length)) :
    settleAll outcome chunk order = some (chunk.map outcome) := by
  unfold settleAll
  have hslots : order.foldl
      (fun acc i =>
        match chunk[i]? with
        | some c => setSlot acc i (outcome c)
        | none => acc)
      (List.replicate chunk.length none)
      = chunk.map (fun c => some (outcome c)) := by
    apply List.ext_getElem?
    intro j
    by_cases hj : j < chunk.length
    · have hm : j ∈ order := (h.mem_iff).mpr (List.mem_range.mpr hj)
      rw [fill_get_mem outcome chunk order _ j hj (by simp) hm]
      rw [List.getElem?_eq_getElem hj,
        List.getElem?_eq_getElem (by simpa using hj)]
      simp
    · have h1 : (order.foldl
          (fun acc i =>
            match chunk[i]? with
            | some c => setSlot acc i (outcome c)
            | none => acc)
          (List.replicate chunk.length none)).length = chunk.length := by
        rw [fill_length]
        simp
      have hlen2 : (List.map (fun c => some (outcome c)) chunk).length ≤ j := by
        simp only [List.length_map]
        omega
      rw [List.getElem?_eq_none (by omega), List.getElem?_eq_none hlen2]
  rw [hslots]
  have := mapOpt_id_map_some (chunk.map outcome)
  rw [List.map_map] at this
  exact this

theorem chunksOf3_flatten {α} : ∀ l : List α, (chunksOf3 l).flatten = l
  | [] => rfl
  | [_] => rfl
  | [_, _] => rfl
  | a :: b :: c :: rest => by
    simp [chunksOf3, chunksOf3_flatten rest]

theorem batchGo_spec {α β} (outcome : α → β) :
    ∀ {cs : List (List α)} {schedule : List (List Nat)},
      List.Forall₂ (fun c ord => ord.Perm (List.range c.length)) cs schedule →
      batchGo outcome cs schedule = some (cs.flatten.map outcome) := by
  intro cs schedule h
  induction h with
  | nil => rfl
  | cons hc _ ih =>
    rename_i c ord cs2 ords2
    simp only [batchGo, settleAll_perm outcome _ _ hc, ih, List.flatten_cons,
      List.map_append]

/-- C1: for every list of configs and every completion timing (one
index-permutation per chunk), `batchProcessUrls` returns exactly one
result per config in input order — the result at index `i` is the outcome
of the config at index `i`. -/
theorem batchProcessUrls_order {α β} (outcome : α → β) (configs : List α)
    (schedule : List (List Nat))
    (h : List.Forall₂ (fun c ord => ord.Perm (List.range c.length))
      (chunksOf3 configs) schedule) :
    batchProcessUrls outcome configs schedule
        = some (configs.map outcome) ∧
      ∀ i : Nat, (configs.map outcome)[i]? = (configs[i]?).map outcome := by
  constructor
  · unfold batchProcessUrls
    rw [batchGo_spec outcome h, chunksOf3_flatten]
  · intro i
    simp [List.getElem?_map]

/-- Witness for C1: five configs under concurrency 3 with out-of-order
completions `[2,0,1]` and `[1,0]` still produce results in input order. -/
theorem batchProcessUrls_order_witness :
    batchProcessUrls (fun n : Nat => n * n) [1, 2, 3, 4, 5]
        [[2, 0, 1], [1, 0]]
      = some ([1, 2, 3, 4, 5].map (fun n : Nat => n * n)) :=
  (batchProcessUrls_order (fun n : Nat => n * n) [1, 2, 3, 4, 5]
    [[2, 0, 1], [1, 0]]
    (List.Forall₂.cons (by decide)
      (List.Forall₂.cons (by decide) List.Forall₂.nil))).1

/-! ## Embedding of score extraction
(`src/nodes/GooglePageSpeed/helpers/responseFormatter.ts`, `extractScores`
lines 507-516).  API floats are modelled as rationals. -/

/-- One Lighthouse category (`lighthouseResult.categories.*`): its `score`
is a `0..1` float or absent. -/
structure Category where
  score : Option ℚ
  deriving DecidableEq

/-- The four categories `extractScores` reads (the JSON keys
`performance`, `accessibility`, `best-practices`, `seo`); a category
absent from the response is `none`. -/
structure Categories where
  performance : Option Category
  accessibility : Option Category
  bestPractices : Option Category
  seo : Option Category
  deriving DecidableEq

/-- `lighthouseResult` of a PageSpeed API response. -/
structure LighthouseResult where
  categories : Categories
  deriving DecidableEq

/-- A PageSpeed API response as far as `extractScores` reads it. -/
structure PageSpeedApiResponse where
  lighthouseResult : Option LighthouseResult
  deriving DecidableEq

/-- `PageSpeedScores` (`interfaces.ts` lines 23-28): the rounded integer
scores. -/
structure PageSpeedScores where
  performance : Int
  accessibility : Int
  bestPractices : Int
  seo : Int
  deriving DecidableEq, Repr

/-- JavaScript `Math.round`: round half toward positive infinity. -/
def jsRound (x : ℚ) : Int := ⌊x + 1 / 2⌋

/-- `categories.<name>?.score || 0`: an absent category, an absent score,
and a score of `0` all yield `0`. -/
def categoryScoreOrZero (c? : Option Category) : ℚ :=
  match c? with
  | none => 0
  | some c =>
    match c.score with
    | none => 0
    | some s => s

/-- `response.lighthouseResult?.categories || {}`. -/
def categoriesOf (response : PageSpeedApiResponse) : Categories :=
  match response.lighthouseResult with
  | none => ⟨none, none, none, none⟩
  | some lr => lr.categories

/-- Embedding of `extractScores` (`responseFormatter.ts` lines 507-516):
`Math.round((categories.<name>?.score || 0) * 100)` per category. -/
def extractScores (response : PageSpeedApiResponse) : PageSpeedScores :=
  let categories := categoriesOf response
  { performance := jsRound (categoryScoreOrZero categories.performance * 100),
    accessibility :=
      jsRound (categoryScoreOrZero categories.accessibility * 100),
    bestPractices :=
      jsRound (categoryScoreOrZero categories.bestPractices * 100),
    seo := jsRound (categoryScoreOrZero categories.seo * 100) }

/-- C7: each formatted category score is `round(score * 100)` of the API's
`0..1` value (0.873 formats to 87), and a category missing from the
response — or one without a score — formats to the integer `0`, never
`null`. -/
theorem extractScores_rounding (response : PageSpeedApiResponse) :
    (∀ s, (categoriesOf response).performance = some ⟨some s⟩ →
      (extractScores response).performance = jsRound (s * 100)) ∧
    (((categoriesOf response).performance = none ∨
        (categoriesOf response).performance = some ⟨none⟩) →
      (extractScores response).performance = 0) ∧
    (∀ s, (categoriesOf response).accessibility = some ⟨some s⟩ →
      (extractScores response).accessibility = jsRound (s * 100)) ∧
    (((categoriesOf response).accessibility = none ∨
        (categoriesOf response).accessibility = some ⟨none⟩) →
      (extractScores response).accessibility = 0) ∧
    (∀ s, (categoriesOf response).bestPractices = some ⟨some s⟩ →
      (extractScores response).bestPractices = jsRound (s * 100)) ∧
    (((categoriesOf response).bestPractices = none ∨
        (categoriesOf response).bestPractices = some ⟨none⟩) →
      (extractScores response).bestPractices = 0) ∧
    (∀ s, (categoriesOf response).seo = some ⟨some s⟩ →
      (extractScores response).seo = jsRound (s * 100)) ∧
    (((categoriesOf response).seo = none ∨
        (categoriesOf response).seo = some ⟨none⟩) →
      (extractScores response).seo = 0) ∧
    jsRound ((873 : ℚ) / 1000 * 100) = 87 := by
  refine ⟨?_, ?_, ?_, ?_, ?_, ?_, ?_, ?_, ?_⟩
  · intro s hs
    simp [extractScores, hs, categoryScoreOrZero]
  · rintro (hs | hs) <;> simp [extractScores, hs, categoryScoreOrZero, jsRound] <;> norm_num
  · intro s hs
    simp [extractScores, hs, categoryScoreOrZero]
  · rintro (hs | hs) <;> simp [extractScores, hs, categoryScoreOrZero, jsRound] <;> norm_num
  · intro s hs
    simp [extractScores, hs, categoryScoreOrZero]
  · rintro (hs | hs) <;> simp [extractScores, hs, categoryScoreOrZero, jsRound] <;> norm_num
  · intro s hs
    simp [extractScores, hs, categoryScoreOrZero]
  · rintro (hs | hs) <;> simp [extractScores, hs, categoryScoreOrZero, jsRound] <;> norm_num
  · norm_num [jsRound]

/-- Witness for C7: a response with performance 0.873, a missing
accessibility category, a score-less best-practices category and seo 0.5
formats to 87 / 0 / 0 / 50. -/
theorem extractScores_rounding_witness :
    (extractScores ⟨some ⟨⟨some ⟨some (873 / 1000)⟩, none, some ⟨none⟩,
        some ⟨some (1 / 2)⟩⟩⟩⟩).performance = jsRound (873 / 1000 * 100) ∧
      jsRound ((873 : ℚ) / 1000 * 100) = 87 ∧
      (extractScores ⟨some ⟨⟨some ⟨some (873 / 1000)⟩, none, some ⟨none⟩,
        some ⟨some (1 / 2)⟩⟩⟩⟩).accessibility = 0 ∧
      (extractScores ⟨some ⟨⟨some ⟨some (873 / 1000)⟩, none, some ⟨none⟩,
        some ⟨some (1 / 2)⟩⟩⟩⟩).bestPractices = 0 :=
  ⟨(extractScores_rounding ⟨some ⟨⟨some ⟨some (873 / 1000)⟩, none,
      some ⟨none⟩, some ⟨some (1 / 2)⟩⟩⟩⟩).1 _ rfl,
   (extractScores_rounding ⟨some ⟨⟨some ⟨some (873 / 1000)⟩, none,
      some ⟨none⟩, some ⟨some (1 / 2)⟩⟩⟩⟩).2.2.2.2.2.2.2.2,
   (extractScores_rounding ⟨some ⟨⟨some ⟨some (873 / 1000)⟩, none,
      some ⟨none⟩, some ⟨some (1 / 2)⟩⟩⟩⟩).2.2.2.1 (Or.inl rfl),
   (extractScores_rounding ⟨some ⟨⟨some ⟨some (873 / 1000)⟩, none,
      some ⟨none⟩, some ⟨some (1 / 2)⟩⟩⟩⟩).2.2.2.2.2.1 (Or.inr rfl)⟩

/-! ## Embedding of the comparator
(`operations/compareUrls.ts`: `calculateScoreDifferences` lines 16-26,
`calculateMetricDifferences` lines 34-60, `determineImprovement`
lines 68-86). -/

/-- `CoreWebVitals` as `calculateMetricDifferences` reads it: the six
metrics it compares, each a number or `null`. -/
structure CoreWebVitals where
  firstContentfulPaint : Option ℚ
  largestContentfulPaint : Option ℚ
  cumulativeLayoutShift : Option ℚ
  speedIndex : Option ℚ
  timeToInteractive : Option ℚ
  totalBlockingTime : Option ℚ
  deriving DecidableEq

/-- `Partial<CoreWebVitals>`: the difference object, whose keys are only
assigned when both inputs were truthy. -/
structure MetricDifferences where
  firstContentfulPaint : Option ℚ
  largestContentfulPaint : Option ℚ
  cumulativeLayoutShift : Option ℚ
  speedIndex : Option ℚ
  timeToInteractive : Option ℚ
  totalBlockingTime : Option ℚ
  deriving DecidableEq

/-- Embedding of `calculateScoreDifferences`: `current - baseline` per
category. -/
def calculateScoreDifferences (baseline current : PageSpeedScores) :
    PageSpeedScores :=
  { performance := current.performance - baseline.performance,
    accessibility := current.accessibility - baseline.accessibility,
    bestPractices := current.bestPractices - baseline.bestPractices,
    seo := current.seo - baseline.seo }

/-- One `if (baseline.x && current.x) differences.x = current.x -
baseline.x` step; JS truthiness makes `null` and `0` both falsy. -/
def metricDiff (b c : Option ℚ) : Option ℚ :=
  match b, c with
  | some bv, some cv =>
    if !(bv == 0) && !(cv == 0) then some (cv - bv) else none
  | _, _ => none

/-- Embedding of `calculateMetricDifferences`. -/
def calculateMetricDifferences (baseline current : CoreWebVitals) :
    MetricDifferences :=
  { firstContentfulPaint :=
      metricDiff baseline.firstContentfulPaint current.firstContentfulPaint,
    largestContentfulPaint :=
      metricDiff baseline.largestContentfulPaint
        current.largestContentfulPaint,
    cumulativeLayoutShift :=
      metricDiff baseline.cumulativeLayoutShift current.cumulativeLayoutShift,
    speedIndex := metricDiff baseline.speedIndex current.speedIndex,
    timeToInteractive :=
      metricDiff baseline.timeToInteractive current.timeToInteractive,
    totalBlockingTime :=
      metricDiff baseline.totalBlockingTime current.totalBlockingTime }

/-- `Object.values(scoreDifferences)` in insertion order. -/
def scoreValues (sd : PageSpeedScores) : List Int :=
  [sd.performance, sd.accessibility, sd.bestPractices, sd.seo]

/-- `Object.values(metricDifferences).filter(...)`: the values of the
assigned keys, in assignment order. -/
def metricValues (md : MetricDifferences) : List ℚ :=
  [md.firstContentfulPaint, md.largestContentfulPaint,
   md.cumulativeLayoutShift, md.speedIndex, md.timeToInteractive,
   md.totalBlockingTime].filterMap (fun x => x)

/-- Embedding of `determineImprovement` (lines 68-86). -/
def determineImprovement (scoreDifferences : PageSpeedScores)
    (metricDifferences : MetricDifferences) : Bool :=
  let scoreImprovements :=
    ((scoreValues scoreDifferences).filter (fun d => decide (d > 0))).length
  let scoreRegressions :=
    ((scoreValues scoreDifferences).filter (fun d => decide (d < 0))).length
  let metricImprovements :=
    ((metricValues metricDifferences).filter (fun d => decide (d < 0))).length
  let metricRegressions :=
    ((metricValues metricDifferences).filter (fun d => decide (d > 0))).length
  decide (scoreImprovements + metricImprovements
    > scoreRegressions + metricRegressions)

/-- C9: each score delta is `current - baseline` (so 60 → 80 gives +20),
and the improvement verdict holds exactly when the improving deltas
(score delta > 0, metric delta < 0) strictly outnumber the regressing
deltas (score delta < 0, metric delta > 0) across scores and metrics. -/
theorem comparator_sign_and_improvement :
    (∀ baseline current,
      calculateScoreDifferences baseline current =
        ⟨current.performance - baseline.performance,
         current.accessibility - baseline.accessibility,
         current.bestPractices - baseline.bestPractices,
         current.seo - baseline.seo⟩) ∧
    (calculateScoreDifferences ⟨60, 50, 50, 50⟩ ⟨80, 50, 50, 50⟩).performance
      = 20 ∧
    (∀ sd md, determineImprovement sd md = true ↔
      (scoreValues sd).countP (fun d => decide (d > 0)) +
          (metricValues md).countP (fun d => decide (d < 0)) >
        (scoreValues sd).countP (fun d => decide (d < 0)) +
          (metricValues md).countP (fun d => decide (d > 0))) ∧
    determineImprovement
      (calculateScoreDifferences ⟨60, 50, 50, 50⟩ ⟨80, 50, 50, 50⟩)
      ⟨none, none, none, none, none, none⟩ = true := by
  refine ⟨fun baseline current => rfl, by decide, ?_, by decide⟩
  intro sd md
  unfold determineImprovement
  simp only [List.countP_eq_length_filter, decide_eq_true_eq]
